import Mathlib

/-!
Verification of the template/state reconciliation engine of the built-studio
editor (src/components/EditorInterface.tsx and src/components/Preview.tsx).

Strings are modelled as `List Char` where character-level scanning matters
(`String.data` converts).  JavaScript objects with string keys are modelled as
association lists in property insertion order, which is what `Object.keys`,
`Object.entries` and the `in`/`hasOwnProperty` operations observe for the
non-numeric keys this code base uses.  JavaScript regular expressions are
modelled by explicit deterministic scanners; for the concrete regexes used by
the source the greedy classes involved (`\s*`, `[a-zA-Z0-9_-]+`, `[^']+`,
`[^;]*`) never need backtracking because the neighbouring characters are
disjoint from the class, so a maximal-munch scanner is an exact model.
-/

/-- Character class of the key pattern `[a-zA-Z0-9_-]` used by every
placeholder regex in the source. -/
def isKeyChar (c : Char) : Bool :=
  c.isAlpha || c.isDigit || c == '_' || c == '-'

/-- JavaScript `\s` on the ASCII range (space, tab, newline, carriage return,
vertical tab, form feed). -/
def isJsWs (c : Char) : Bool :=
  c == ' ' || c == '\t' || c == '\n' || c == '\r' || c == '\x0b' || c == '\x0c'

/-- JavaScript word character (for `\b`): `[A-Za-z0-9_]`. -/
def isWordChar (c : Char) : Bool :=
  c.isAlpha || c.isDigit || c == '_'

/-- Drop leading JavaScript whitespace (`\s*`, greedy). -/
def dropWs (s : List Char) : List Char := s.dropWhile isJsWs

/-- Literal-match test: does `p` occur at the very start of `s`?  (Models a
regex engine matching the literal characters of `p`.) -/
def litPre : List Char → List Char → Bool
  | [], _ => true
  | _ :: _, [] => false
  | a :: as, b :: bs => a == b && litPre as bs

/-- JavaScript `String.prototype.includes`: `sub` occurs somewhere in `s`. -/
def jsIncludes (s sub : List Char) : Bool :=
  s.tails.any (fun t => litPre sub t)

/-- First-occurrence deduplication; models iterating a JavaScript `Set` in
insertion order. -/
def dedupFirst (ks : List String) : List String :=
  ks.foldl (fun acc k => if acc.contains k then acc else acc ++ [k]) []

/-! ### The placeholder scanner

Models `/(?:{{|%7B%7B)\s*([a-zA-Z0-9_-]+)\s*(?:}}|%7D%7D)/g` (EditorInterface
lines 131, 500, 615; FormEditor line 1346).  The two alternations are decided
by their (disjoint) first characters, and the greedy `\s*` / key class stop
exactly at the closer's first character, so the scan is deterministic. -/

/-- Opening delimiter: `{{` or `%7B%7B` (case-sensitive, as in the source). -/
def openTokAt : List Char → Option (List Char)
  | '{' :: '{' :: r => some r
  | '%' :: '7' :: 'B' :: '%' :: '7' :: 'B' :: r => some r
  | _ => none

/-- Closing delimiter: `}}` or `%7D%7D`. -/
def closeTokAt : List Char → Option (List Char)
  | '}' :: '}' :: r => some r
  | '%' :: '7' :: 'D' :: '%' :: '7' :: 'D' :: r => some r
  | _ => none

/-- Try to match one placeholder token at the head of `s`; on success return
the captured key and the remainder of the input after the token. -/
def matchVarTokenAt (s : List Char) : Option (String × List Char) :=
  match openTokAt s with
  | none => none
  | some afterOpen =>
    let r1 := dropWs afterOpen
    let key := r1.takeWhile isKeyChar
    if key.isEmpty then none
    else
      match closeTokAt (dropWs (r1.drop key.length)) with
      | none => none
      | some rem => some (String.mk key, rem)

/-- One `regex.exec` loop: try a match at each position, continuing after the
match (the `g` flag advances `lastIndex` past the match).  Fuel is the input
length; every step consumes at least one character. -/
def scanAux : Nat → List Char → List String
  | 0, _ => []
  | f + 1, s =>
    match s with
    | [] => []
    | c :: rest =>
      match matchVarTokenAt (c :: rest) with
      | some (k, rem) => k :: scanAux f rem
      | none => scanAux f rest

/-- All placeholder keys of a raw template string, in match order
(with repetitions). -/
def scanKeys (s : List Char) : List String := scanAux s.length s

/-- The `foundKeys` set of the reconciliation effect (EditorInterface
lines 131-137): unique keys in first-occurrence order. -/
def foundKeysOf (html : String) : List String := dedupFirst (scanKeys html.data)

/-! ### JavaScript objects as association lists -/

/-- A JavaScript object with string keys and string values (the display values
of the editor State; values are compared and stored as their String form). -/
abbrev Obj := List (String × String)

/-- Property read `st[k]`. -/
def objGet : Obj → String → Option String
  | [], _ => none
  | (k', v) :: rest, k => if k' = k then some v else objGet rest k

/-- Property read defaulted (a defined property is always read where this is
used; an absent property compares unequal to every default, matching
`undefined`). -/
def objGetD (st : Obj) (k : String) : String := (objGet st k).getD ""

/-- `hasOwnProperty` / `in`. -/
def objHasKey (st : Obj) (k : String) : Bool := (objGet st k).isSome

/-- Property write `st[k] = v`: an existing property keeps its position, a new
property is appended (JavaScript insertion order). -/
def objSet : Obj → String → String → Obj
  | [], k, v => [(k, v)]
  | (k', v') :: rest, k, v =>
    if k' = k then (k, v) :: rest else (k', v') :: objSet rest k v

/-- `delete st[k]`. -/
def objDelete : Obj → String → Obj
  | [], _ => []
  | (k', v') :: rest, k => if k' = k then rest else (k', v') :: objDelete rest k

/-- `Object.keys`. -/
def objKeys (st : Obj) : List String := st.map Prod.fst

/-! ### The reconciliation effect (EditorInterface lines 128-195) -/

/-- The auto-generated default display value `[key]`. -/
def defaultValue (k : String) : String := "[" ++ k ++ "]"

/-- The predicate of `removedKeys.find(...)` in the rename-migration step
(lines 154-158): the removed key's current value was customised, and either
key is a substring of the other, or exactly one removed key remains. -/
def migratePred (st : Obj) (removed : List String) (newKey oldKey : String) : Bool :=
  (objGetD st oldKey != defaultValue oldKey) &&
    (jsIncludes newKey.data oldKey.data || jsIncludes oldKey.data newKey.data ||
      removed.length == 1)

/-- The `addedKeys.forEach` loop of the rename migration (lines 150-167):
for each added key in order, the first acceptable removed key donates its
value (`newState[newKey] = newState[sourceKey]; delete newState[sourceKey]`)
and is spliced out of `removedKeys`. -/
def migrateRenames (st : Obj) (removed : List String) : List String → Obj × List String
  | [] => (st, removed)
  | newKey :: rest =>
    match removed.find? (migratePred st removed newKey) with
    | some src =>
      migrateRenames (objDelete (objSet st newKey (objGetD st src)) src)
        (removed.erase src) rest
    | none => migrateRenames st removed rest

/-- `addedKeys = Array.from(foundKeys).filter(k => !currentKeys.includes(k))`. -/
def addedKeysOf (found : List String) (st : Obj) : List String :=
  found.filter (fun k => !(objKeys st).contains k)

/-- `removedKeys = currentKeys.filter(k => !foundKeys.has(k))`. -/
def removedKeysOf (found : List String) (st : Obj) : List String :=
  (objKeys st).filter (fun k => !found.contains k)

/-- Step 1 of the reconciliation pass, guarded by
`if (addedKeys.length > 0 && removedKeys.length > 0)`.  Returns the migrated
state together with the removed keys not consumed by migration. -/
def migratePhase (found : List String) (prev : Obj) : Obj × List String :=
  if (addedKeysOf found prev).isEmpty || (removedKeysOf found prev).isEmpty then
    (prev, removedKeysOf found prev)
  else migrateRenames prev (removedKeysOf found prev) (addedKeysOf found prev)

/-- Step 2 (lines 169-175): every found key absent from the state is created
with the default value `[key]`, iterating `foundKeys` in insertion order. -/
def addDefaults (st : Obj) : List String → Obj
  | [] => st
  | k :: rest =>
    addDefaults (if objHasKey st k then st else objSet st k (defaultValue k)) rest

/-- One step of the stale-key sweep (lines 180-188): a key that is not found
and whose value still equals its own default is deleted. -/
def pruneStep (found : List String) (s : Obj) (k : String) : Obj :=
  if !found.contains k && (objGetD s k == defaultValue k) then objDelete s k else s

/-- The `Object.keys(newState).forEach` sweep over a snapshot of the keys. -/
def pruneFold (found : List String) (st : Obj) : List String → Obj
  | [] => st
  | k :: rest => pruneFold found (pruneStep found st k) rest

/-- Step 3 of the reconciliation pass. -/
def pruneStale (st : Obj) (found : List String) : Obj :=
  pruneFold found st (objKeys st)

/-- The full `setState` updater of the reconciliation effect, for a given
found-key list.  (The `hasChanges ? newState : prevState` return does not
change the resulting mapping and is not modelled.) -/
def reconcileFound (found : List String) (prev : Obj) : Obj :=
  pruneStale (addDefaults (migratePhase found prev).1 found) found

/-- The debounced reconciliation pass: scan the template, then reconcile. -/
def reconcileState (html : String) (prev : Obj) : Obj :=
  reconcileFound (foundKeysOf html) prev

/-! ### Lemmas about the object operations -/

theorem objGet_set_self (st : Obj) (k v : String) : objGet (objSet st k v) k = some v := by
  induction st with
  | nil => simp [objSet, objGet]
  | cons e rest ih =>
    obtain ⟨k', v'⟩ := e
    by_cases h : k' = k
    · simp [objSet, h, objGet]
    · simp [objSet, h, objGet, ih]

theorem objGet_set_ne {k' k : String} (st : Obj) (v : String) (h : k' ≠ k) :
    objGet (objSet st k' v) k = objGet st k := by
  induction st with
  | nil => simp [objSet, objGet, h]
  | cons e rest ih =>
    obtain ⟨k₀, v₀⟩ := e
    by_cases h0 : k₀ = k'
    · subst h0
      simp [objSet, objGet, h, Ne.symm h]
    · by_cases h1 : k₀ = k
      · simp [objSet, h0, objGet, h1, Ne.symm h]
      · simp [objSet, h0, objGet, h1, ih]

theorem objGet_delete_ne {k' k : String} (st : Obj) (h : k' ≠ k) :
    objGet (objDelete st k') k = objGet st k := by
  induction st with
  | nil => simp [objDelete]
  | cons e rest ih =>
    obtain ⟨k₀, v₀⟩ := e
    by_cases h0 : k₀ = k'
    · subst h0
      simp [objDelete, objGet, h, Ne.symm h]
    · by_cases h1 : k₀ = k
      · simp [objDelete, h0, objGet, h1, Ne.symm h]
      · simp [objDelete, h0, objGet, h1, ih]

theorem objHasKey_iff_mem (st : Obj) (k : String) :
    objHasKey st k = true ↔ k ∈ objKeys st := by
  induction st with
  | nil => simp [objHasKey, objGet, objKeys]
  | cons e rest ih =>
    obtain ⟨k₀, v₀⟩ := e
    by_cases h0 : k₀ = k
    · simp [objHasKey, objGet, objKeys, h0]
    · simpa [objHasKey, objGet, objKeys, h0, Ne.symm h0] using ih

theorem objHasKey_delete_absent {k : String} (st : Obj) (j : String)
    (h : objHasKey st k = false) : objHasKey (objDelete st j) k = false := by
  induction st with
  | nil => simpa [objDelete] using h
  | cons e rest ih =>
    obtain ⟨k₀, v₀⟩ := e
    by_cases h0 : k₀ = k
    · simp [objHasKey, objGet, h0] at h
    · have h' : objHasKey rest k = false := by simpa [objHasKey, objGet, h0] using h
      by_cases h1 : k₀ = j
      · simpa [objDelete, h1] using h'
      · simpa [objDelete, h1, objHasKey, objGet, h0] using ih h'

theorem objHasKey_delete_self {k : String} (st : Obj)
    (h : (objKeys st).Nodup) : objHasKey (objDelete st k) k = false := by
  induction st with
  | nil => simp [objDelete, objHasKey, objGet]
  | cons e rest ih =>
    obtain ⟨k₀, v₀⟩ := e
    have hnotin : k₀ ∉ objKeys rest := by simpa [objKeys] using (List.nodup_cons.mp h).1
    have hrest : (objKeys rest).Nodup := by simpa [objKeys] using (List.nodup_cons.mp h).2
    by_cases h0 : k₀ = k
    · subst h0
      have : objHasKey rest k₀ = false := by
        by_contra hc
        exact hnotin ((objHasKey_iff_mem rest k₀).mp (eq_true_of_ne_false hc))
      simpa [objDelete] using this
    · simpa [objDelete, h0, objHasKey, objGet, h0] using ih hrest

theorem mem_objKeys_set (st : Obj) (k v j : String) :
    j ∈ objKeys (objSet st k v) ↔ j ∈ objKeys st ∨ j = k := by
  induction st with
  | nil => simp [objSet, objKeys]
  | cons e rest ih =>
    obtain ⟨k₀, v₀⟩ := e
    by_cases h0 : k₀ = k
    · subst h0
      simp [objSet, objKeys]
      tauto
    · simp [objSet, h0, objKeys] at ih ⊢
      tauto

theorem objKeys_set_nodup (st : Obj) (k v : String) (h : (objKeys st).Nodup) :
    (objKeys (objSet st k v)).Nodup := by
  induction st with
  | nil => simp [objSet, objKeys]
  | cons e rest ih =>
    obtain ⟨k₀, v₀⟩ := e
    have hnotin : k₀ ∉ objKeys rest := by simpa [objKeys] using (List.nodup_cons.mp h).1
    have hrest : (objKeys rest).Nodup := by simpa [objKeys] using (List.nodup_cons.mp h).2
    by_cases h0 : k₀ = k
    · subst h0
      simpa [objSet, objKeys] using h
    · have : k₀ ∉ objKeys (objSet rest k v) := by
        rw [mem_objKeys_set]
        rintro (hm | hm)
        · exact hnotin hm
        · exact h0 hm
      simpa [objSet, h0, objKeys, List.nodup_cons] using ⟨by simpa [objKeys] using this, ih hrest⟩

theorem objDelete_sublist (st : Obj) (k : String) : List.Sublist (objDelete st k) st := by
  induction st with
  | nil => simp [objDelete]
  | cons e rest ih =>
    obtain ⟨k₀, v₀⟩ := e
    by_cases h0 : k₀ = k
    · rw [objDelete, if_pos h0]
      exact List.sublist_cons_self (k₀, v₀) rest
    · rw [objDelete, if_neg h0]
      exact List.Sublist.cons₂ (k₀, v₀) ih

theorem objKeys_delete_nodup (st : Obj) (k : String) (h : (objKeys st).Nodup) :
    (objKeys (objDelete st k)).Nodup := by
  exact List.Nodup.sublist (List.Sublist.map Prod.fst (objDelete_sublist st k)) h

/-! ### Lemmas about the rename-migration fold -/

theorem migrateRenames_get_ne {k : String} :
    ∀ (added : List String) (st : Obj) (removed : List String),
      k ∉ added → k ∉ removed →
      objGet (migrateRenames st removed added).1 k = objGet st k := by
  intro added
  induction added with
  | nil => intro st removed _ _; simp [migrateRenames]
  | cons newKey rest ih =>
    intro st removed hka hkr
    have hka' : k ∉ rest := fun h => hka (List.mem_cons_of_mem _ h)
    have hkane : newKey ≠ k := fun h => hka (h ▸ List.mem_cons_self _ _)
    unfold migrateRenames
    cases hfind : removed.find? (migratePred st removed newKey) with
    | none => exact ih st removed hka' hkr
    | some src =>
      have hsrc : src ∈ removed := List.mem_of_find?_eq_some hfind
      have hsrcne : src ≠ k := fun h => hkr (h ▸ hsrc)
      rw [ih _ _ hka' (fun h => hkr (List.erase_subset _ _ h))]
      rw [objGet_delete_ne _ hsrcne, objGet_set_ne _ _ hkane]

theorem migrateRenames_snd_subset :
    ∀ (added : List String) (st : Obj) (removed : List String),
      (migrateRenames st removed added).2 ⊆ removed := by
  intro added
  induction added with
  | nil => intro st removed; simp [migrateRenames]
  | cons newKey rest ih =>
    intro st removed
    unfold migrateRenames
    cases hfind : removed.find? (migratePred st removed newKey) with
    | none => exact ih st removed
    | some src => exact (ih _ _).trans (List.erase_subset _ _)

theorem migrateRenames_removed_get :
    ∀ (added : List String) (st : Obj) (removed : List String),
      removed.Nodup → (∀ a ∈ added, a ∉ removed) →
      ∀ r ∈ (migrateRenames st removed added).2,
        objGet (migrateRenames st removed added).1 r = objGet st r := by
  intro added
  induction added with
  | nil => intro st removed _ _ r _; simp [migrateRenames]
  | cons newKey rest ih =>
    intro st removed hnd hdisj r hr
    unfold migrateRenames at hr ⊢
    cases hfind : removed.find? (migratePred st removed newKey) with
    | none =>
      rw [hfind] at hr
      exact ih st removed hnd (fun a ha => hdisj a (List.mem_cons_of_mem _ ha)) r hr
    | some src =>
      rw [hfind] at hr
      have hr' : r ∈ removed.erase src := migrateRenames_snd_subset _ _ _ hr
      have hrne : r ≠ src := ((List.Nodup.mem_erase_iff hnd).mp hr').1
      have hrmem : r ∈ removed := ((List.Nodup.mem_erase_iff hnd).mp hr').2
      have hnewne : newKey ≠ r := fun h =>
        hdisj newKey (List.mem_cons_self _ _) (h ▸ hrmem)
      rw [ih _ _ (List.Nodup.erase _ hnd)
        (fun a ha hm => hdisj a (List.mem_cons_of_mem _ ha) (List.erase_subset _ _ hm)) r hr]
      rw [objGet_delete_ne _ (Ne.symm hrne), objGet_set_ne _ _ hnewne]

theorem migrateRenames_keys_nodup :
    ∀ (added : List String) (st : Obj) (removed : List String),
      (objKeys st).Nodup → (objKeys (migrateRenames st removed added).1).Nodup := by
  intro added
  induction added with
  | nil => intro st removed h; simpa [migrateRenames] using h
  | cons newKey rest ih =>
    intro st removed h
    unfold migrateRenames
    cases hfind : removed.find? (migratePred st removed newKey) with
    | none => exact ih st removed h
    | some src =>
      exact ih _ _ (objKeys_delete_nodup _ _ (objKeys_set_nodup _ _ _ h))

/-! ### Lemmas about the remaining phases -/

theorem addDefaults_get_of_has {k : String} :
    ∀ (ks : List String) (st : Obj), objHasKey st k = true →
      objGet (addDefaults st ks) k = objGet st k ∧
        objHasKey (addDefaults st ks) k = true := by
  intro ks
  induction ks with
  | nil => intro st h; exact ⟨rfl, h⟩
  | cons j rest ih =>
    intro st h
    by_cases hj : objHasKey st j = true
    · simpa [addDefaults, hj] using ih st h
    · have hjk : j ≠ k := fun he => hj (he ▸ h)
      have hget : objGet (objSet st j (defaultValue j)) k = objGet st k :=
        objGet_set_ne _ _ hjk
      have hhas : objHasKey (objSet st j (defaultValue j)) k = true := by
        simpa [objHasKey, hget] using h
      have := ih (objSet st j (defaultValue j)) hhas
      simp only [addDefaults, hj, if_false, Bool.false_eq_true]
      exact ⟨this.1.trans hget, this.2⟩

theorem addDefaults_get_ne {k : String} :
    ∀ (ks : List String) (st : Obj), k ∉ ks →
      objGet (addDefaults st ks) k = objGet st k := by
  intro ks
  induction ks with
  | nil => intro st _; rfl
  | cons j rest ih =>
    intro st hk
    have hjk : j ≠ k := fun h => hk (h ▸ List.mem_cons_self _ _)
    have hk' : k ∉ rest := fun h => hk (List.mem_cons_of_mem _ h)
    by_cases hj : objHasKey st j = true
    · simpa [addDefaults, hj] using ih st hk'
    · simp only [addDefaults, hj, if_false, Bool.false_eq_true]
      exact (ih _ hk').trans (objGet_set_ne _ _ hjk)

theorem addDefaults_has_of_mem {k : String} :
    ∀ (ks : List String) (st : Obj), k ∈ ks →
      objHasKey (addDefaults st ks) k = true := by
  intro ks
  induction ks with
  | nil => intro st h; cases h
  | cons j rest ih =>
    intro st hk
    by_cases hjk : j = k
    · subst hjk
      by_cases hj : objHasKey st j = true
      · simpa [addDefaults, hj] using (addDefaults_get_of_has rest st hj).2
      · have hhas : objHasKey (objSet st j (defaultValue j)) j = true := by
          simp [objHasKey, objGet_set_self]
        simp only [addDefaults, hj, if_false, Bool.false_eq_true]
        exact (addDefaults_get_of_has rest _ hhas).2
    · have hk' : k ∈ rest := by
        cases List.mem_cons.mp hk with
        | inl h => exact absurd h.symm hjk
        | inr h => exact h
      by_cases hj : objHasKey st j = true
      · simpa [addDefaults, hj] using ih st hk'
      · simp only [addDefaults, hj, if_false, Bool.false_eq_true]
        exact ih _ hk'

theorem addDefaults_default_of_absent {k : String} :
    ∀ (ks : List String) (st : Obj), k ∈ ks → objHasKey st k = false →
      objGet (addDefaults st ks) k = some (defaultValue k) := by
  intro ks
  induction ks with
  | nil => intro st h; cases h
  | cons j rest ih =>
    intro st hk habs
    by_cases hjk : j = k
    · subst hjk
      have hj : objHasKey st j = true → False := by
        intro h; rw [h] at habs; cases habs
      have hj' : ¬ objHasKey st j = true := hj
      have hset : objGet (objSet st j (defaultValue j)) j = some (defaultValue j) :=
        objGet_set_self _ _ _
      have hhas : objHasKey (objSet st j (defaultValue j)) j = true := by
        simp [objHasKey, hset]
      simp only [addDefaults, hj', if_false, Bool.false_eq_true]
      exact ((addDefaults_get_of_has rest _ hhas).1).trans hset
    · have hk' : k ∈ rest := by
        cases List.mem_cons.mp hk with
        | inl h => exact absurd h.symm hjk
        | inr h => exact h
      by_cases hj : objHasKey st j = true
      · simpa [addDefaults, hj] using ih st hk' habs
      · have habs' : objHasKey (objSet st j (defaultValue j)) k = false := by
          simpa [objHasKey, objGet_set_ne _ _ hjk] using habs
        simp only [addDefaults, hj, if_false, Bool.false_eq_true]
        exact ih _ hk' habs'

theorem addDefaults_keys_nodup :
    ∀ (ks : List String) (st : Obj), (objKeys st).Nodup →
      (objKeys (addDefaults st ks)).Nodup := by
  intro ks
  induction ks with
  | nil => intro st h; exact h
  | cons j rest ih =>
    intro st h
    by_cases hj : objHasKey st j = true
    · simpa [addDefaults, hj] using ih st h
    · simp only [addDefaults, hj, if_false, Bool.false_eq_true]
      exact ih _ (objKeys_set_nodup _ _ _ h)

theorem pruneFold_get_found {found : List String} {k : String} (hk : k ∈ found) :
    ∀ (ks : List String) (st : Obj),
      objGet (pruneFold found st ks) k = objGet st k := by
  intro ks
  induction ks with
  | nil => intro st; rfl
  | cons j rest ih =>
    intro st
    have hstep : objGet (pruneStep found st j) k = objGet st k := by
      unfold pruneStep
      split
      · rename_i hcond
        by_cases hjk : j = k
        · subst hjk
          have : found.contains j = true := List.elem_iff.mpr hk
          rw [this] at hcond
          simp at hcond
        · exact objGet_delete_ne _ hjk
      · rfl
    exact (ih _).trans hstep

theorem pruneFold_get_notmem {found : List String} {k : String} :
    ∀ (ks : List String) (st : Obj), k ∉ ks →
      objGet (pruneFold found st ks) k = objGet st k := by
  intro ks
  induction ks with
  | nil => intro st _; rfl
  | cons j rest ih =>
    intro st hk
    have hjk : j ≠ k := fun h => hk (h ▸ List.mem_cons_self _ _)
    have hstep : objGet (pruneStep found st j) k = objGet st k := by
      unfold pruneStep
      split
      · exact objGet_delete_ne _ hjk
      · rfl
    exact (ih _ (fun h => hk (List.mem_cons_of_mem _ h))).trans hstep

theorem pruneFold_absent {found : List String} {k : String} :
    ∀ (ks : List String) (st : Obj), objHasKey st k = false →
      objHasKey (pruneFold found st ks) k = false := by
  intro ks
  induction ks with
  | nil => intro st h; exact h
  | cons j rest ih =>
    intro st h
    have hstep : objHasKey (pruneStep found st j) k = false := by
      unfold pruneStep
      split
      · exact objHasKey_delete_absent _ _ h
      · exact h
    exact ih _ hstep

theorem pruneFold_retains {found : List String} {k v : String} (hv : v ≠ defaultValue k) :
    ∀ (ks : List String) (st : Obj), ks.Nodup → objGet st k = some v →
      objGet (pruneFold found st ks) k = some v := by
  intro ks
  induction ks with
  | nil => intro st _ h; exact h
  | cons j rest ih =>
    intro st hnd hget
    by_cases hjk : j = k
    · subst hjk
      have hbe : (objGetD st j == defaultValue j) = false := by
        simp [objGetD, hget]
        exact hv
      have hstep : pruneStep found st j = st := by
        unfold pruneStep
        rw [hbe]
        simp
      show objGet (pruneFold found (pruneStep found st j) rest) j = some v
      rw [hstep, pruneFold_get_notmem rest _ (List.nodup_cons.mp hnd).1]
      exact hget
    · have hstep : objGet (pruneStep found st j) k = some v := by
        unfold pruneStep
        split
        · rw [objGet_delete_ne _ hjk]; exact hget
        · exact hget
      exact ih _ (List.nodup_cons.mp hnd).2 hstep

theorem pruneFold_keys_nodup {found : List String} :
    ∀ (ks : List String) (st : Obj), (objKeys st).Nodup →
      (objKeys (pruneFold found st ks)).Nodup := by
  intro ks
  induction ks with
  | nil => intro st h; exact h
  | cons j rest ih =>
    intro st h
    have : (objKeys (pruneStep found st j)).Nodup := by
      unfold pruneStep
      split
      · exact objKeys_delete_nodup _ _ h
      · exact h
    exact ih _ this

theorem pruneFold_deletes {found : List String} {k : String} (hnf : k ∉ found) :
    ∀ (ks : List String) (st : Obj), (objKeys st).Nodup → ks.Nodup → k ∈ ks →
      objGet st k = some (defaultValue k) →
      objHasKey (pruneFold found st ks) k = false := by
  intro ks
  induction ks with
  | nil => intro st _ _ h; cases h
  | cons j rest ih =>
    intro st hstnd hnd hk hget
    by_cases hjk : j = k
    · subst hjk
      have hc : found.contains j = false := by
        by_contra hcc
        exact hnf (List.elem_iff.mp (eq_true_of_ne_false hcc))
      have hbe : (objGetD st j == defaultValue j) = true := by
        simp [objGetD, hget]
      have hstep : pruneStep found st j = objDelete st j := by
        unfold pruneStep
        rw [hc, hbe]
        simp
      show objHasKey (pruneFold found (pruneStep found st j) rest) j = false
      rw [hstep]
      exact pruneFold_absent _ _ (objHasKey_delete_self _ hstnd)
    · have hk' : k ∈ rest := by
        cases List.mem_cons.mp hk with
        | inl h => exact absurd h.symm hjk
        | inr h => exact h
      have hget' : objGet (pruneStep found st j) k = some (defaultValue k) := by
        unfold pruneStep
        split
        · rw [objGet_delete_ne _ hjk]; exact hget
        · exact hget
      have hnd' : (objKeys (pruneStep found st j)).Nodup := by
        unfold pruneStep
        split
        · exact objKeys_delete_nodup _ _ hstnd
        · exact hstnd
      exact ih _ hnd' (List.nodup_cons.mp hnd).2 hk' hget'

/-! ### Facts connecting the phases -/

theorem not_mem_added_of_has {found : List String} {st : Obj} {k : String}
    (h : objHasKey st k = true) : k ∉ addedKeysOf found st := by
  intro hmem
  have h2 := (List.mem_filter.mp hmem).2
  simp at h2
  exact h2 ((objHasKey_iff_mem st k).mp h)

theorem not_mem_removed_of_found {found : List String} {st : Obj} {k : String}
    (h : k ∈ found) : k ∉ removedKeysOf found st := by
  intro hmem
  have h2 := (List.mem_filter.mp hmem).2
  simp at h2
  exact h2 h

theorem removed_subset_keys {found : List String} {st : Obj} :
    removedKeysOf found st ⊆ objKeys st :=
  fun _ hx => (List.mem_filter.mp hx).1

theorem removed_not_found {found : List String} {st : Obj} {k : String}
    (h : k ∈ removedKeysOf found st) : k ∉ found := by
  have h2 := (List.mem_filter.mp h).2
  simp at h2
  exact h2

theorem added_disjoint_removed {found : List String} {st : Obj} :
    ∀ a ∈ addedKeysOf found st, a ∉ removedKeysOf found st := by
  intro a ha hmem
  have h1 := (List.mem_filter.mp ha).2
  simp at h1
  exact h1 (removed_subset_keys hmem)

theorem migratePhase_get_ne {found : List String} {prev : Obj} {k : String}
    (ha : k ∉ addedKeysOf found prev) (hr : k ∉ removedKeysOf found prev) :
    objGet (migratePhase found prev).1 k = objGet prev k := by
  unfold migratePhase
  split
  · rfl
  · exact migrateRenames_get_ne _ _ _ ha hr

theorem migratePhase_keys_nodup {found : List String} {prev : Obj}
    (h : (objKeys prev).Nodup) : (objKeys (migratePhase found prev).1).Nodup := by
  unfold migratePhase
  split
  · exact h
  · exact migrateRenames_keys_nodup _ _ _ h

theorem migratePhase_removed_get {found : List String} {prev : Obj}
    (h : (objKeys prev).Nodup) :
    ∀ r ∈ (migratePhase found prev).2,
      objGet (migratePhase found prev).1 r = objGet prev r := by
  unfold migratePhase
  split
  · intro r _; rfl
  · exact migrateRenames_removed_get _ _ _ (List.Nodup.filter _ h) added_disjoint_removed

/-! ### The reconciliation theorems -/

/-- C10: a reconciliation pass never changes the value bound to a key that
appears both in the Template's scanned key set and in the prior State: for
every such key the resulting State maps it to exactly its prior value (so in
particular it survives the pass). -/
theorem reconcile_preserves_shared_values (tmpl : String) (prev : Obj) (k v : String)
    (hf : k ∈ foundKeysOf tmpl) (hget : objGet prev k = some v) :
    objGet (reconcileState tmpl prev) k = some v := by
  have hhas : objHasKey prev k = true := by simp [objHasKey, hget]
  have h1 : objGet (migratePhase (foundKeysOf tmpl) prev).1 k = some v := by
    rw [migratePhase_get_ne (not_mem_added_of_has hhas) (not_mem_removed_of_found hf)]
    exact hget
  have hhas1 : objHasKey (migratePhase (foundKeysOf tmpl) prev).1 k = true := by
    simp [objHasKey, h1]
  have h2 := (addDefaults_get_of_has (foundKeysOf tmpl) _ hhas1).1
  unfold reconcileState reconcileFound pruneStale
  rw [pruneFold_get_found hf, h2, h1]

/-- Witness for C10 at a concrete template and state. -/
theorem reconcile_preserves_shared_values_witness :
    ("a" ∈ foundKeysOf (String.mk ('{' :: '{' :: 'a' :: '}' :: '}' :: [])) ∧
      objGet [("a", "hello")] "a" = some "hello") ∧
    objGet (reconcileState (String.mk ('{' :: '{' :: 'a' :: '}' :: '}' :: []))
      [("a", "hello")]) "a" = some "hello" :=
  ⟨⟨by decide, by decide⟩,
    reconcile_preserves_shared_values _ _ "a" "hello" (by decide) (by decide)⟩

/-- C7: after a reconciliation pass every key appearing as a placeholder in
the Template has a State entry, and a key that had no entry and was not
resolved by rename migration is created with the default value `[key]`. -/
theorem reconcile_creates_template_keys (tmpl : String) (prev : Obj) :
    (∀ k, k ∈ foundKeysOf tmpl → objHasKey (reconcileState tmpl prev) k = true) ∧
    (∀ k, k ∈ foundKeysOf tmpl → objHasKey prev k = false →
      objHasKey (migratePhase (foundKeysOf tmpl) prev).1 k = false →
      objGet (reconcileState tmpl prev) k = some (defaultValue k)) := by
  constructor
  · intro k hk
    have h2 := addDefaults_has_of_mem (foundKeysOf tmpl)
      (migratePhase (foundKeysOf tmpl) prev).1 hk
    obtain ⟨w, hw⟩ := Option.isSome_iff_exists.mp h2
    unfold reconcileState reconcileFound pruneStale
    rw [objHasKey, pruneFold_get_found hk, hw]
    rfl
  · intro k hk _ hmig
    have h2 := addDefaults_default_of_absent (foundKeysOf tmpl)
      (migratePhase (foundKeysOf tmpl) prev).1 hk hmig
    unfold reconcileState reconcileFound pruneStale
    rw [pruneFold_get_found hk, h2]

/-- Witness for C7: a fresh key gets its entry with the default value. -/
theorem reconcile_creates_template_keys_witness :
    objHasKey (reconcileState (String.mk ('{' :: '{' :: 'a' :: '}' :: '}' :: [])) []) "a" = true ∧
    objGet (reconcileState (String.mk ('{' :: '{' :: 'a' :: '}' :: '}' :: [])) []) "a" =
      some (defaultValue "a") :=
  ⟨(reconcile_creates_template_keys _ []).1 "a" (by decide),
    (reconcile_creates_template_keys _ []).2 "a" (by decide) (by decide) (by decide)⟩

/-- C6: after a reconciliation pass, a State key that no longer appears in the
Template and was not consumed by rename migration is deleted exactly when its
value still equals its auto-default `[key]`; a customized value is retained
(with its value unchanged). -/
theorem reconcile_prunes_stale (tmpl : String) (prev : Obj) (k v : String)
    (hnd : (objKeys prev).Nodup)
    (hget : objGet prev k = some v)
    (hnf : k ∉ foundKeysOf tmpl)
    (hnc : k ∈ (migratePhase (foundKeysOf tmpl) prev).2) :
    (v = defaultValue k → objHasKey (reconcileState tmpl prev) k = false) ∧
    (v ≠ defaultValue k → objGet (reconcileState tmpl prev) k = some v) := by
  have h1 : objGet (migratePhase (foundKeysOf tmpl) prev).1 k = some v := by
    rw [migratePhase_removed_get hnd k hnc]
    exact hget
  have h2 : objGet (addDefaults (migratePhase (foundKeysOf tmpl) prev).1
      (foundKeysOf tmpl)) k = some v :=
    (addDefaults_get_ne (foundKeysOf tmpl) _ hnf).trans h1
  have hnd2 : (objKeys (addDefaults (migratePhase (foundKeysOf tmpl) prev).1
      (foundKeysOf tmpl))).Nodup :=
    addDefaults_keys_nodup _ _ (migratePhase_keys_nodup hnd)
  constructor
  · intro hdef
    subst hdef
    have hmem : k ∈ objKeys (addDefaults (migratePhase (foundKeysOf tmpl) prev).1
        (foundKeysOf tmpl)) :=
      (objHasKey_iff_mem _ k).mp (by simp [objHasKey, h2])
    unfold reconcileState reconcileFound pruneStale
    exact pruneFold_deletes hnf _ _ hnd2 hnd2 hmem h2
  · intro hne
    unfold reconcileState reconcileFound pruneStale
    exact pruneFold_retains hne _ _ hnd2 h2

/-- Witness for C6: `x` with untouched default is deleted, `y` with a
customized value is retained, after both vanish from the Template. -/
theorem reconcile_prunes_stale_witness :
    objHasKey (reconcileState "no-tokens-here"
      [("x", defaultValue "x"), ("y", "custom")]) "x" = false ∧
    objGet (reconcileState "no-tokens-here"
      [("x", defaultValue "x"), ("y", "custom")]) "y" = some "custom" :=
  ⟨(reconcile_prunes_stale "no-tokens-here" [("x", defaultValue "x"), ("y", "custom")]
      "x" (defaultValue "x") (by decide) (by decide) (by decide) (by decide)).1 rfl,
    (reconcile_prunes_stale "no-tokens-here" [("x", defaultValue "x"), ("y", "custom")]
      "y" "custom" (by decide) (by decide) (by decide) (by decide)).2 (by decide)⟩

/-- The concrete template of the rename-migration scenario of C5:
`<p>{{link3}} {{title}}</p>`. -/
def tmplC5 : String :=
  "<p>" ++ String.mk ('{' :: '{' :: "link3".data ++ ['}', '}']) ++ " " ++
    String.mk ('{' :: '{' :: "title".data ++ ['}', '}']) ++ "</p>"

/-- C5: the rename-migration heuristic moves a customized value from a removed
key to an added key (here via the sole-remaining-candidate rule): from State
`{link1: v, title: "[title]"}` with `v` customized and the Template edited so
`link1` becomes `link3`, reconciliation yields `{link3: v, title: "[title]"}`. -/
theorem reconcile_rename_migration (v : String) (hv : v ≠ defaultValue "link1") :
    reconcileState tmplC5 [("link1", v), ("title", "[title]")] =
      [("title", "[title]"), ("link3", v)] := by
  have h0 : (v == defaultValue "link1") = false := beq_eq_false_iff_ne.mpr hv
  have hpred : migratePred [("link1", v), ("title", "[title]")] ["link1"] "link3" "link1"
      = true := by
    unfold migratePred
    rw [show objGetD [("link1", v), ("title", "[title]")] "link1" = v from rfl]
    simp [bne, h0]
  have hfind : List.find?
      (migratePred [("link1", v), ("title", "[title]")] ["link1"] "link3") ["link1"]
      = some "link1" := by
    simp [List.find?, hpred]
  have hm : migratePhase ["link3", "title"] [("link1", v), ("title", "[title]")] =
      ([("title", "[title]"), ("link3", v)], []) := by
    show migrateRenames [("link1", v), ("title", "[title]")] ["link1"] ["link3"] = _
    unfold migrateRenames
    rw [hfind]
    rfl
  show pruneStale (addDefaults
    (migratePhase ["link3", "title"] [("link1", v), ("title", "[title]")]).1
    ["link3", "title"]) ["link3", "title"] = _
  rw [hm]
  rfl

/-- Witness for C5 at the concrete customized value `"custom"`. -/
theorem reconcile_rename_migration_witness :
    ("custom" ≠ defaultValue "link1") ∧
    reconcileState tmplC5 [("link1", "custom"), ("title", "[title]")] =
      [("title", "[title]"), ("link3", "custom")] :=
  ⟨by decide, reconcile_rename_migration "custom" (by decide)⟩

/-! ### The preview substitution pass (Preview.tsx, getProcessedHtml)

For each entry of `Object.entries(currentState)` the source runs
`hydrated.replace(new RegExp('{{\\s*' + key + '\\s*}}', 'g'), () => String(value))`.
The replacement is produced by a function, so no `$`-patterns apply, and the
`g` flag continues scanning after each replacement without rescanning the
inserted text.  `matchKeyTokenAt` models one match attempt of that regex at a
given position (for the well-formed keys this code produces, the greedy `\s*`
and the literal key never need backtracking). -/

/-- One match attempt of `{{\s*KEY\s*}}` at the head of `s`; on success,
returns the rest of the input after the match. -/
def matchKeyTokenAt (key : List Char) (s : List Char) : Option (List Char) :=
  match s with
  | c1 :: c2 :: r =>
    if c1 = '{' ∧ c2 = '{' then
      if litPre key (dropWs r) then
        match dropWs ((dropWs r).drop key.length) with
        | d1 :: d2 :: r3 => if d1 = '}' ∧ d2 = '}' then some r3 else none
        | _ => none
      else none
    else none
  | _ => none

theorem dropWs_length_le (s : List Char) : (dropWs s).length ≤ s.length :=
  List.Sublist.length_le (List.dropWhile_sublist _)

/-- Definitional unfolding of the matcher on an input with two visible
characters. -/
theorem matchKeyTokenAt_cons_cons (key : List Char) (c1 c2 : Char) (r : List Char) :
    matchKeyTokenAt key (c1 :: c2 :: r) =
      if c1 = '{' ∧ c2 = '{' then
        if litPre key (dropWs r) then
          match dropWs ((dropWs r).drop key.length) with
          | d1 :: d2 :: r3 => if d1 = '}' ∧ d2 = '}' then some r3 else none
          | _ => none
        else none
      else none := rfl

theorem matchKeyTokenAt_length {key s r : List Char}
    (h : matchKeyTokenAt key s = some r) : r.length < s.length := by
  cases s with
  | nil => cases h
  | cons c1 s1 =>
    cases s1 with
    | nil => cases h
    | cons c2 rest =>
      have hlen : (dropWs ((dropWs rest).drop key.length)).length ≤ rest.length := by
        calc (dropWs ((dropWs rest).drop key.length)).length
            ≤ ((dropWs rest).drop key.length).length := dropWs_length_le _
          _ ≤ (dropWs rest).length := by rw [List.length_drop]; omega
          _ ≤ rest.length := dropWs_length_le _
      rw [matchKeyTokenAt_cons_cons] at h
      by_cases h12 : c1 = '{' ∧ c2 = '{'
      · rw [if_pos h12] at h
        by_cases hlp : litPre key (dropWs rest) = true
        · rw [if_pos hlp] at h
          cases hd : dropWs ((dropWs rest).drop key.length) with
          | nil => rw [hd] at h; cases h
          | cons d1 t1 =>
            cases t1 with
            | nil => rw [hd] at h; cases h
            | cons d2 r3 =>
              rw [hd] at h
              have h' : (if d1 = '}' ∧ d2 = '}' then some r3 else none) = some r := h
              by_cases hd12 : d1 = '}' ∧ d2 = '}'
              · rw [if_pos hd12] at h'
                injection h' with hr
                subst hr
                rw [hd] at hlen
                simp only [List.length_cons] at hlen ⊢
                omega
              · rw [if_neg hd12] at h'
                cases h'
        · rw [if_neg hlp] at h
          cases h
      · rw [if_neg h12] at h
        cases h

/-- The scanning loop of one global replacement.  Fuel is the input length;
every recursive call consumes at least one input character. -/
def replaceKeyAux (key val : List Char) : Nat → List Char → List Char
  | 0, s => s
  | f + 1, s =>
    match s with
    | [] => []
    | c :: rest =>
      match matchKeyTokenAt key (c :: rest) with
      | some r => val ++ replaceKeyAux key val f r
      | none => c :: replaceKeyAux key val f rest

theorem replaceKeyAux_congr (key val : List Char) :
    ∀ (f₁ f₂ : Nat) (s : List Char), s.length ≤ f₁ → s.length ≤ f₂ →
      replaceKeyAux key val f₁ s = replaceKeyAux key val f₂ s := by
  intro f₁
  induction f₁ with
  | zero =>
    intro f₂ s h1 _
    have hs : s = [] := List.eq_nil_of_length_eq_zero (Nat.le_zero.mp h1)
    subst hs
    cases f₂ <;> rfl
  | succ f ih =>
    intro f₂ s h1 h2
    cases s with
    | nil => cases f₂ <;> rfl
    | cons c rest =>
      cases f₂ with
      | zero => simp at h2
      | succ g =>
        cases hm : matchKeyTokenAt key (c :: rest) with
        | some r =>
          have hl := matchKeyTokenAt_length hm
          have hle1 : r.length ≤ f := by simp [List.length_cons] at hl h1; omega
          have hle2 : r.length ≤ g := by simp [List.length_cons] at hl h2; omega
          simp only [replaceKeyAux, hm]
          rw [ih g r hle1 hle2]
        | none =>
          have hle1 : rest.length ≤ f := by simp [List.length_cons] at h1; omega
          have hle2 : rest.length ≤ g := by simp [List.length_cons] at h2; omega
          simp only [replaceKeyAux, hm]
          rw [ih g rest hle1 hle2]

/-- `String.prototype.replace` with the global per-key regex. -/
def replaceKey (key val s : List Char) : List Char :=
  replaceKeyAux key val s.length s

theorem replaceKey_nil (key val : List Char) : replaceKey key val [] = [] := rfl

theorem replaceKey_cons (key val : List Char) (c : Char) (rest : List Char) :
    replaceKey key val (c :: rest) =
      match matchKeyTokenAt key (c :: rest) with
      | some r => val ++ replaceKey key val r
      | none => c :: replaceKey key val rest := by
  show replaceKeyAux key val (c :: rest).length (c :: rest) = _
  rw [show (c :: rest).length = rest.length + 1 from rfl]
  show (match matchKeyTokenAt key (c :: rest) with
    | some r => val ++ replaceKeyAux key val rest.length r
    | none => c :: replaceKeyAux key val rest.length rest) = _
  cases hm : matchKeyTokenAt key (c :: rest) with
  | some r =>
    have hl := matchKeyTokenAt_length hm
    simp only [hm]
    rw [replaceKeyAux_congr key val rest.length r.length r
      (by simp [List.length_cons] at hl; omega) (Nat.le_refl _)]
    rfl
  | none => simp only [hm]; rfl

/-- The substitution loop of `getProcessedHtml` (Preview.tsx lines 42-47):
fold the per-key global replacement over `Object.entries(currentState)`.
(The upstream `data-path` decoration and head/body concatenation produce the
string this loop runs on; the loop itself is what realizes the substitution
pass of the spec.) -/
def getProcessedHtml (rawHtml : List Char) (currentState : Obj) : List Char :=
  currentState.foldl (fun acc kv => replaceKey kv.1.data kv.2.data acc) rawHtml

/-! ### Structured templates

A template is viewed as a list of segments: literal runs and placeholder
tokens `{{w1 key w2}}`.  Well-formedness (brace-free literals, whitespace
fillers, keys over the key charset) makes the segment view unambiguous, and
the substitution pass acts segmentwise. -/

inductive Seg where
  | lit (t : List Char)
  | ph (w1 : List Char) (k : String) (w2 : List Char)
deriving DecidableEq

def flattenSeg : Seg → List Char
  | .lit t => t
  | .ph w1 k w2 => '{' :: '{' :: (w1 ++ (k.data ++ (w2 ++ ['}', '}'])))

def flattenT : List Seg → List Char
  | [] => []
  | sg :: rest => flattenSeg sg ++ flattenT rest

/-- A well-formed key: nonempty, over `[a-zA-Z0-9_-]`. -/
def wfKeyB (k : String) : Bool := !k.data.isEmpty && k.data.all isKeyChar

/-- A brace-free string (no `{` and no `}`). -/
def braceFreeB (v : String) : Bool := v.data.all (fun c => !(c == '{') && !(c == '}'))

def wfSegB : Seg → Bool
  | .lit t => t.all (fun c => !(c == '{') && !(c == '}'))
  | .ph w1 k w2 => w1.all isJsWs && w2.all isJsWs && wfKeyB k

/-- The segmentwise effect of one per-key replacement. -/
def phReplace (k v : String) : Seg → Seg
  | .ph w1 k' w2 => if k' = k then .lit v.data else .ph w1 k' w2
  | .lit t => .lit t

/-- The segmentwise effect of the whole substitution pass. -/
def substSegs (entries : Obj) (segs : List Seg) : List Seg :=
  entries.foldl (fun sg kv => sg.map (phReplace kv.1 kv.2)) segs

/-! ### Character-class facts -/

theorem wsChar_not_key {c : Char} (h : isJsWs c = true) : isKeyChar c = false := by
  simp only [isJsWs, Bool.or_eq_true, beq_iff_eq] at h
  rcases h with ((((h1 | h1) | h1) | h1) | h1) | h1 <;> subst h1 <;> decide

theorem keyChar_not_ws {c : Char} (h : isKeyChar c = true) : isJsWs c = false := by
  cases hjs : isJsWs c with
  | false => rfl
  | true => rw [wsChar_not_key hjs] at h; cases h

theorem keyChar_ne_lb {c : Char} (h : isKeyChar c = true) : c ≠ '{' := by
  rintro rfl
  exact absurd h (by decide)

theorem keyChar_ne_rb {c : Char} (h : isKeyChar c = true) : c ≠ '}' := by
  rintro rfl
  exact absurd h (by decide)

theorem wsChar_ne_lb {c : Char} (h : isJsWs c = true) : c ≠ '{' := by
  rintro rfl
  exact absurd h (by decide)

/-! ### `dropWs` and `litPre` facts -/

theorem dropWs_append_ws {w : List Char} (hw : ∀ c ∈ w, isJsWs c = true)
    (x : List Char) : dropWs (w ++ x) = dropWs x := by
  induction w with
  | nil => rfl
  | cons c cs ih =>
    have hc := hw c (List.mem_cons_self _ _)
    rw [List.cons_append]
    show dropWs (c :: (cs ++ x)) = dropWs x
    rw [dropWs, List.dropWhile_cons, if_pos hc]
    exact ih (fun d hd => hw d (List.mem_cons_of_mem _ hd))

theorem dropWs_cons_of_not {c : Char} (h : isJsWs c = false) (x : List Char) :
    dropWs (c :: x) = c :: x := by
  rw [dropWs, List.dropWhile_cons, if_neg]
  simp [h]

theorem litPre_append_self (k t : List Char) : litPre k (k ++ t) = true := by
  induction k with
  | nil => rfl
  | cons a as ih => simpa [litPre] using ih

/-- If `key` is a literal-prefix of `k' ++ t`, with `key ≠ k'` both over the
key charset and `t` starting with a non-key character, then dropping
`key.length` characters leaves a key character at the front (so the closer
check of the token regex fails). -/
theorem keyDropNe :
    ∀ (key k' t : List Char), key ≠ k' →
      (∀ c ∈ key, isKeyChar c = true) → (∀ c ∈ k', isKeyChar c = true) →
      (∀ c, t.head? = some c → isKeyChar c = false) →
      litPre key (k' ++ t) = true →
      ∃ d r2, (k' ++ t).drop key.length = d :: r2 ∧ isKeyChar d = true := by
  intro key
  induction key with
  | nil =>
    intro k' t hne _ hk' _ _
    cases k' with
    | nil => exact absurd rfl hne
    | cons d ds => exact ⟨d, ds ++ t, by simp, hk' d (List.mem_cons_self _ _)⟩
  | cons kh kt ih =>
    intro k' t hne hk hk' ht hp
    cases k' with
    | nil =>
      cases t with
      | nil => simp [litPre] at hp
      | cons c cs =>
        simp only [List.nil_append, litPre, Bool.and_eq_true, beq_iff_eq] at hp
        have hkc := hk kh (List.mem_cons_self _ _)
        rw [hp.1] at hkc
        rw [ht c rfl] at hkc
        cases hkc
    | cons k'h k't =>
      simp only [List.cons_append, litPre, Bool.and_eq_true, beq_iff_eq] at hp
      obtain ⟨h1, h2⟩ := hp
      have hne' : kt ≠ k't := fun he => hne (by rw [h1, he])
      obtain ⟨d, r2, hd, hdk⟩ := ih k't t hne'
        (fun c hc => hk c (List.mem_cons_of_mem _ hc))
        (fun c hc => hk' c (List.mem_cons_of_mem _ hc)) ht h2
      refine ⟨d, r2, ?_, hdk⟩
      simpa [List.drop] using hd

/-! ### Behaviour of the token matcher on the segment shapes -/

theorem matchKeyTokenAt_self (key w1 w2 fr : List Char)
    (hk0 : key ≠ []) (hk : ∀ c ∈ key, isKeyChar c = true)
    (hw1 : ∀ c ∈ w1, isJsWs c = true) (hw2 : ∀ c ∈ w2, isJsWs c = true) :
    matchKeyTokenAt key ('{' :: '{' :: (w1 ++ (key ++ (w2 ++ '}' :: '}' :: fr)))) =
      some fr := by
  obtain ⟨kh, kt, rfl⟩ : ∃ kh kt, key = kh :: kt := by
    cases key with
    | nil => exact absurd rfl hk0
    | cons a as => exact ⟨a, as, rfl⟩
  rw [matchKeyTokenAt_cons_cons, if_pos ⟨rfl, rfl⟩]
  have hd1 : dropWs (w1 ++ ((kh :: kt) ++ (w2 ++ '}' :: '}' :: fr))) =
      (kh :: kt) ++ (w2 ++ '}' :: '}' :: fr) := by
    rw [dropWs_append_ws hw1, List.cons_append]
    exact dropWs_cons_of_not (keyChar_not_ws (hk kh (List.mem_cons_self _ _))) _
  rw [hd1, if_pos (litPre_append_self _ _)]
  rw [List.drop_left (kh :: kt) (w2 ++ '}' :: '}' :: fr)]
  rw [dropWs_append_ws hw2 _, dropWs_cons_of_not (by decide : isJsWs '}' = false) _]
  simp

theorem matchKeyTokenAt_none_of_head {c : Char} (key : List Char) (hc : c ≠ '{') :
    ∀ x, matchKeyTokenAt key (c :: x) = none := by
  intro x
  cases x with
  | nil => rfl
  | cons c2 x' =>
    rw [matchKeyTokenAt_cons_cons, if_neg]
    rintro ⟨h1, _⟩
    exact hc h1

theorem matchKeyTokenAt_none_of_second {c2 : Char} (key : List Char) (hc : c2 ≠ '{') :
    ∀ x, matchKeyTokenAt key ('{' :: c2 :: x) = none := by
  intro x
  rw [matchKeyTokenAt_cons_cons, if_neg]
  rintro ⟨_, h2⟩
  exact hc h2

theorem matchKeyTokenAt_other (key k' w1 w2 fr : List Char)
    (hk : ∀ c ∈ key, isKeyChar c = true)
    (hk'0 : k' ≠ []) (hk' : ∀ c ∈ k', isKeyChar c = true)
    (hne : key ≠ k')
    (hw1 : ∀ c ∈ w1, isJsWs c = true) (hw2 : ∀ c ∈ w2, isJsWs c = true) :
    matchKeyTokenAt key ('{' :: '{' :: (w1 ++ (k' ++ (w2 ++ '}' :: '}' :: fr)))) =
      none := by
  obtain ⟨kh', kt', rfl⟩ : ∃ kh' kt', k' = kh' :: kt' := by
    cases k' with
    | nil => exact absurd rfl hk'0
    | cons a as => exact ⟨a, as, rfl⟩
  rw [matchKeyTokenAt_cons_cons, if_pos ⟨rfl, rfl⟩]
  have hd1 : dropWs (w1 ++ ((kh' :: kt') ++ (w2 ++ '}' :: '}' :: fr))) =
      (kh' :: kt') ++ (w2 ++ '}' :: '}' :: fr) := by
    rw [dropWs_append_ws hw1, List.cons_append]
    exact dropWs_cons_of_not (keyChar_not_ws (hk' kh' (List.mem_cons_self _ _))) _
  rw [hd1]
  have htHead : ∀ c, (w2 ++ '}' :: '}' :: fr).head? = some c → isKeyChar c = false := by
    intro c hc
    cases w2 with
    | nil =>
      simp at hc
      subst hc
      decide
    | cons w ws =>
      simp at hc
      subst hc
      exact wsChar_not_key (hw2 w (List.mem_cons_self _ _))
  cases hp : litPre key ((kh' :: kt') ++ (w2 ++ '}' :: '}' :: fr)) with
  | false => simp [hp]
  | true =>
    rw [if_pos rfl]
    obtain ⟨d, r2, hd, hdk⟩ :=
      keyDropNe key (kh' :: kt') (w2 ++ '}' :: '}' :: fr) hne hk hk' htHead hp
    rw [hd, dropWs_cons_of_not (keyChar_not_ws hdk) _]
    cases r2 with
    | nil => rfl
    | cons d2 r3 =>
      show (if d = '}' ∧ d2 = '}' then some r3 else none) = none
      rw [if_neg]
      rintro ⟨h1, _⟩
      exact keyChar_ne_rb hdk h1

/-! ### The per-key replacement acts segmentwise -/

theorem replaceKey_append_nolb (key val : List Char) :
    ∀ (a b : List Char), (∀ c ∈ a, c ≠ '{') →
      replaceKey key val (a ++ b) = a ++ replaceKey key val b := by
  intro a
  induction a with
  | nil => intro b _; rfl
  | cons c a' ih =>
    intro b ha
    simp only [List.cons_append]
    rw [replaceKey_cons,
      matchKeyTokenAt_none_of_head key (ha c (List.mem_cons_self _ _)) _]
    rw [ih b (fun d hd => ha d (List.mem_cons_of_mem _ hd))]

theorem wfKeyB_iff (k : String) :
    wfKeyB k = true ↔ k.data ≠ [] ∧ ∀ c ∈ k.data, isKeyChar c = true := by
  simp [wfKeyB, List.all_eq_true, List.isEmpty_iff]

theorem replaceKey_flattenT (key v : String) (hk : wfKeyB key = true) :
    ∀ segs, (∀ sg ∈ segs, wfSegB sg = true) →
      replaceKey key.data v.data (flattenT segs) =
        flattenT (segs.map (phReplace key v)) := by
  have hk0 : key.data ≠ [] := ((wfKeyB_iff key).mp hk).1
  have hkc : ∀ c ∈ key.data, isKeyChar c = true := ((wfKeyB_iff key).mp hk).2
  intro segs
  induction segs with
  | nil => intro _; rfl
  | cons sg rest ih =>
    intro hwf
    have hwfr : ∀ s ∈ rest, wfSegB s = true :=
      fun s hs => hwf s (List.mem_cons_of_mem _ hs)
    cases sg with
    | lit t =>
      have hlit : ∀ c ∈ t, c ≠ '{' ∧ c ≠ '}' := by
        have := hwf _ (List.mem_cons_self _ _)
        simpa [wfSegB, List.all_eq_true] using this
      show replaceKey key.data v.data (t ++ flattenT rest) = _
      rw [replaceKey_append_nolb key.data v.data t _ (fun c hc => (hlit c hc).1),
        ih hwfr]
      rfl
    | ph w1 k' w2 =>
      have hph := hwf _ (List.mem_cons_self _ _)
      simp only [wfSegB, Bool.and_eq_true, List.all_eq_true] at hph
      obtain ⟨⟨hw1, hw2⟩, hk'⟩ := hph
      have hk'0 : k'.data ≠ [] := ((wfKeyB_iff k').mp hk').1
      have hk'c : ∀ c ∈ k'.data, isKeyChar c = true := ((wfKeyB_iff k').mp hk').2
      have hshape : flattenT (Seg.ph w1 k' w2 :: rest) =
          '{' :: '{' :: (w1 ++ (k'.data ++ (w2 ++ '}' :: '}' :: flattenT rest))) := by
        show flattenSeg (Seg.ph w1 k' w2) ++ flattenT rest = _
        simp [flattenSeg, List.append_assoc]
      by_cases hkk : k' = key
      · subst hkk
        rw [hshape, replaceKey_cons,
          matchKeyTokenAt_self k'.data w1 w2 (flattenT rest) hk'0 hk'c hw1 hw2]
        show v.data ++ replaceKey k'.data v.data (flattenT rest) = _
        rw [ih hwfr]
        simp [phReplace, flattenT, flattenSeg]
      · have hnedata : key.data ≠ k'.data := by
          intro he
          exact hkk (String.ext he).symm
        have hbody : ∀ c ∈ (w1 ++ (k'.data ++ (w2 ++ ['}', '}']))), c ≠ '{' := by
          intro c hc
          rcases List.mem_append.mp hc with h | hc2
          · exact wsChar_ne_lb (hw1 c h)
          · rcases List.mem_append.mp hc2 with h | hc3
            · exact keyChar_ne_lb (hk'c c h)
            · rcases List.mem_append.mp hc3 with h | hc4
              · exact wsChar_ne_lb (hw2 c h)
              · have hcc : c = '}' := by simpa using hc4
                subst hcc
                decide
        obtain ⟨c2, x', hx, hc2⟩ :
            ∃ c2 x', w1 ++ (k'.data ++ (w2 ++ '}' :: '}' :: flattenT rest)) = c2 :: x' ∧
              c2 ≠ '{' := by
          cases w1 with
          | cons w ws =>
            exact ⟨w, _, rfl, wsChar_ne_lb (hw1 w (List.mem_cons_self _ _))⟩
          | nil =>
            obtain ⟨kh', kt', hkeq⟩ : ∃ kh' kt', k'.data = kh' :: kt' := by
              cases hkd : k'.data with
              | nil => exact absurd hkd hk'0
              | cons a as => exact ⟨a, as, rfl⟩
            refine ⟨kh', kt' ++ (w2 ++ '}' :: '}' :: flattenT rest), ?_, ?_⟩
            · simp [hkeq]
            · exact keyChar_ne_lb (hk'c kh' (by rw [hkeq]; exact List.mem_cons_self _ _))
        have hstep2 : replaceKey key.data v.data
            ('{' :: (w1 ++ (k'.data ++ (w2 ++ '}' :: '}' :: flattenT rest)))) =
            '{' :: replaceKey key.data v.data
              (w1 ++ (k'.data ++ (w2 ++ '}' :: '}' :: flattenT rest))) := by
          rw [hx, replaceKey_cons, matchKeyTokenAt_none_of_second key.data hc2 _]
        have hsplit : w1 ++ (k'.data ++ (w2 ++ '}' :: '}' :: flattenT rest)) =
            (w1 ++ (k'.data ++ (w2 ++ ['}', '}']))) ++ flattenT rest := by
          simp [List.append_assoc]
        have hstep3 : replaceKey key.data v.data
            (w1 ++ (k'.data ++ (w2 ++ '}' :: '}' :: flattenT rest))) =
            (w1 ++ (k'.data ++ (w2 ++ ['}', '}']))) ++
              flattenT (rest.map (phReplace key v)) := by
          rw [hsplit, replaceKey_append_nolb key.data v.data _ _ hbody, ih hwfr]
        rw [hshape, replaceKey_cons,
          matchKeyTokenAt_other key.data k'.data w1 w2 (flattenT rest)
            hkc hk'0 hk'c hnedata hw1 hw2]
        show '{' :: replaceKey key.data v.data
          ('{' :: (w1 ++ (k'.data ++ (w2 ++ '}' :: '}' :: flattenT rest)))) = _
        rw [hstep2, hstep3]
        have hphr : phReplace key v (Seg.ph w1 k' w2) = Seg.ph w1 k' w2 := by
          simp [phReplace, hkk]
        show _ = flattenT ((Seg.ph w1 k' w2 :: rest).map (phReplace key v))
        rw [List.map_cons, hphr]
        show _ = flattenSeg (Seg.ph w1 k' w2) ++ flattenT (rest.map (phReplace key v))
        simp [flattenSeg, List.append_assoc]

theorem wfSegB_phReplace (k v : String) (hv : braceFreeB v = true) (sg : Seg)
    (h : wfSegB sg = true) : wfSegB (phReplace k v sg) = true := by
  cases sg with
  | lit t => exact h
  | ph w1 k' w2 =>
    by_cases hkk : k' = k
    · have hrw : phReplace k v (Seg.ph w1 k' w2) = Seg.lit v.data := by
        simp [phReplace, hkk]
      rw [hrw]
      exact hv
    · simpa [phReplace, hkk] using h

theorem substSegs_wf (entries : Obj) :
    ∀ segs, (∀ sg ∈ segs, wfSegB sg = true) →
      (∀ kv ∈ entries, braceFreeB kv.2 = true) →
      ∀ sg ∈ substSegs entries segs, wfSegB sg = true := by
  induction entries with
  | nil => intro segs hs _; exact hs
  | cons kv rest ih =>
    intro segs hs hent
    show ∀ sg ∈ substSegs rest (segs.map (phReplace kv.1 kv.2)), wfSegB sg = true
    refine ih _ ?_ (fun e he => hent e (List.mem_cons_of_mem _ he))
    intro sg hsg
    obtain ⟨x, hx, rfl⟩ := List.mem_map.mp hsg
    exact wfSegB_phReplace kv.1 kv.2 (hent kv (List.mem_cons_self _ _)) x (hs x hx)

theorem getProcessedHtml_substSegs (entries : Obj) :
    ∀ segs, (∀ sg ∈ segs, wfSegB sg = true) →
      (∀ kv ∈ entries, wfKeyB kv.1 = true ∧ braceFreeB kv.2 = true) →
      getProcessedHtml (flattenT segs) entries = flattenT (substSegs entries segs) := by
  induction entries with
  | nil => intro segs _ _; rfl
  | cons kv rest ih =>
    intro segs hsegs hent
    show getProcessedHtml (replaceKey kv.1.data kv.2.data (flattenT segs)) rest =
      flattenT (substSegs rest (segs.map (phReplace kv.1 kv.2)))
    rw [replaceKey_flattenT kv.1 kv.2 (hent kv (List.mem_cons_self _ _)).1 segs hsegs]
    refine ih _ ?_ (fun e he => hent e (List.mem_cons_of_mem _ he))
    intro sg hsg
    obtain ⟨x, hx, rfl⟩ := List.mem_map.mp hsg
    exact wfSegB_phReplace kv.1 kv.2 (hent kv (List.mem_cons_self _ _)).2 x (hsegs x hx)

theorem substSegs_keeps_absent (entries : Obj) :
    ∀ segs (w1 : List Char) (k : String) (w2 : List Char),
      Seg.ph w1 k w2 ∈ segs → (∀ kv ∈ entries, kv.1 ≠ k) →
      Seg.ph w1 k w2 ∈ substSegs entries segs := by
  induction entries with
  | nil => intro segs w1 k w2 h _; exact h
  | cons kv rest ih =>
    intro segs w1 k w2 h hne
    show Seg.ph w1 k w2 ∈ substSegs rest (segs.map (phReplace kv.1 kv.2))
    refine ih _ w1 k w2 ?_ (fun e he => hne e (List.mem_cons_of_mem _ he))
    refine List.mem_map.mpr ⟨Seg.ph w1 k w2, h, ?_⟩
    have : k ≠ kv.1 := fun he => hne kv (List.mem_cons_self _ _) he.symm
    simp [phReplace, this]

theorem no_ph_in_phReplace_self (k v : String) (segs : List Seg) :
    ∀ w1 w2, Seg.ph w1 k w2 ∉ segs.map (phReplace k v) := by
  intro w1 w2 hmem
  obtain ⟨x, _, hfx⟩ := List.mem_map.mp hmem
  cases x with
  | lit t => simp [phReplace] at hfx
  | ph a b c =>
    by_cases hbk : b = k
    · simp [phReplace, hbk] at hfx
    · simp [phReplace, hbk] at hfx

theorem no_ph_preserved_map (k k'' v'' : String) (segs : List Seg)
    (habs : ∀ w1 w2, Seg.ph w1 k w2 ∉ segs) :
    ∀ w1 w2, Seg.ph w1 k w2 ∉ segs.map (phReplace k'' v'') := by
  intro w1 w2 hmem
  obtain ⟨x, hx, hfx⟩ := List.mem_map.mp hmem
  cases x with
  | lit t => simp [phReplace] at hfx
  | ph a b c =>
    by_cases hbk : b = k''
    · simp [phReplace, hbk] at hfx
    · simp [phReplace, hbk] at hfx
      obtain ⟨h1, h2, h3⟩ := hfx
      subst h1; subst h2; subst h3
      exact habs _ _ hx

theorem substSegs_no_ph_preserved (k : String) (entries : Obj) :
    ∀ segs, (∀ w1 w2, Seg.ph w1 k w2 ∉ segs) →
      ∀ w1 w2, Seg.ph w1 k w2 ∉ substSegs entries segs := by
  induction entries with
  | nil => intro segs h; exact h
  | cons kv rest ih =>
    intro segs h
    exact ih _ (no_ph_preserved_map k kv.1 kv.2 segs h)

theorem substSegs_eliminates (entries : Obj) :
    ∀ segs (k : String), (∃ kv ∈ entries, kv.1 = k) →
      ∀ w1 w2, Seg.ph w1 k w2 ∉ substSegs entries segs := by
  induction entries with
  | nil =>
    intro segs k h
    obtain ⟨kv, hkv, _⟩ := h
    cases hkv
  | cons kv rest ih =>
    intro segs k h
    by_cases hk : kv.1 = k
    · subst hk
      show ∀ w1 w2, Seg.ph w1 kv.1 w2 ∉ substSegs rest (segs.map (phReplace kv.1 kv.2))
      exact substSegs_no_ph_preserved kv.1 rest _ (no_ph_in_phReplace_self kv.1 kv.2 segs)
    · obtain ⟨e, he, hek⟩ := h
      have hemem : e ∈ rest := by
        cases List.mem_cons.mp he with
        | inl h0 => exact absurd (h0 ▸ hek) hk
        | inr h0 => exact h0
      exact ih _ k ⟨e, hemem, hek⟩

/-- C2 (amended): the substitution pass of `getProcessedHtml` replaces every
`{{key}}` occurrence whose key is present in State by the String form of the
State value; an occurrence whose key is absent from State is left verbatim
(it is NOT replaced by the empty string); consequently, over a well-formed
template whose substituted values are brace-free, no `{{key}}` token with
`key` present in State remains in the output. -/
theorem getProcessedHtml_spec (entries : Obj) (segs : List Seg)
    (hsegs : ∀ sg ∈ segs, wfSegB sg = true)
    (hent : ∀ kv ∈ entries, wfKeyB kv.1 = true ∧ braceFreeB kv.2 = true) :
    getProcessedHtml (flattenT segs) entries = flattenT (substSegs entries segs) ∧
    (∀ (w1 : List Char) (k : String) (w2 : List Char), Seg.ph w1 k w2 ∈ segs →
      (∀ kv ∈ entries, kv.1 ≠ k) → Seg.ph w1 k w2 ∈ substSegs entries segs) ∧
    (∀ k : String, (∃ kv ∈ entries, kv.1 = k) →
      ∀ w1 w2, Seg.ph w1 k w2 ∉ substSegs entries segs) :=
  ⟨getProcessedHtml_substSegs entries segs hsegs hent,
    fun w1 k w2 h hne => substSegs_keeps_absent entries segs w1 k w2 h hne,
    fun k h => substSegs_eliminates entries segs k h⟩

/-- C2, counterexample to the claim as stated: an occurrence whose key is
absent from State is NOT replaced by the empty string — the token is left
verbatim in the output (here `{{x}}` with State `{y: "val"}`). -/
theorem getProcessedHtml_absent_left_verbatim :
    getProcessedHtml ['{', '{', 'x', '}', '}'] [("y", "val")] =
      ['{', '{', 'x', '}', '}'] ∧
    (['{', '{', 'x', '}', '}'] : List Char) ≠ [] := ⟨by decide, by decide⟩

/-- The structured template `<p>{{a}}</p>` used in the C2 witness. -/
def segsC2 : List Seg := [Seg.lit "<p>".data, Seg.ph [] "a" [], Seg.lit "</p>".data]

/-- Witness for C2 at a concrete template and state. -/
theorem getProcessedHtml_spec_witness :
    (∀ sg ∈ segsC2, wfSegB sg = true) ∧
    getProcessedHtml (flattenT segsC2) [("a", "X")] =
      flattenT (substSegs [("a", "X")] segsC2) ∧
    flattenT (substSegs [("a", "X")] segsC2) = "<p>X</p>".data :=
  ⟨by decide, (getProcessedHtml_spec [("a", "X")] segsC2 (by decide) (by decide)).1,
    by decide⟩

/-! ### The DOM model

`DOMParser.parseFromString(html, "text/html")` yields a tree of elements and
text nodes under `doc.body`; the model represents that parsed body as a
`Node` with tag `"BODY"` (tag names are stored uppercased, as `tagName`
reports them).  Node identity of the live DOM is represented by paths (child
index lists) from the body root. -/

inductive Node where
  | text (s : String)
  | element (tag : String) (attrs : List (String × String)) (children : List Node)

/-- Look up the node at a child-index path. -/
def nodeAt : List Nat → Node → Option Node
  | [], n => some n
  | i :: p, .element _ _ cs =>
    match cs[i]? with
    | some c => nodeAt p c
    | none => none
  | _ :: _, .text _ => none

mutual

/-- Document-order (pre-order) traversal, pairing each node with its path;
an element is visited before its children. -/
def preorderN : Node → List Nat → List (List Nat × Node)
  | .text s, p => [(p, .text s)]
  | .element tg ats cs, p => (p, .element tg ats cs) :: preorderC cs p 0

def preorderC : List Node → List Nat → Nat → List (List Nat × Node)
  | [], _, _ => []
  | c :: rest, p, i => preorderN c (p ++ [i]) ++ preorderC rest p (i + 1)

end

/-- `createTreeWalker(doc.body, SHOW_ELEMENT | SHOW_TEXT)` iterated with
`nextNode()`: all descendants of the body in document order, excluding the
body root itself. -/
def walkerNodes (root : Node) : List (List Nat × Node) :=
  (preorderN root []).drop 1

/-- The literal `{{key}}` searched for by `findElementWithKey`. -/
def varTokenPlain (k : String) : List Char :=
  '{' :: '{' :: (k.data ++ ['}', '}'])

/-- The literal `%7B%7Bkey%7D%7D` searched for in attribute values. -/
def varTokenEnc (k : String) : List Char :=
  "%7B%7B".data ++ (k.data ++ "%7D%7D".data)

/-- The `findElementWithKey` helper shared by `handleSwapVariables` and
`handleDuplicateVariable` (EditorInterface lines 428-443 and 578-593): walk
the body, returning the first text node whose content contains `{{key}}`, or
the first element one of whose attribute values contains `{{key}}` or
`%7B%7Bkey%7D%7D`. -/
def findElementWithKey (root : Node) (k : String) : Option (List Nat) :=
  ((walkerNodes root).find? (fun pn =>
    match pn.2 with
    | .text s => jsIncludes s.data (varTokenPlain k)
    | .element _ ats _ =>
      ats.any (fun a =>
        jsIncludes a.2.data (varTokenPlain k) || jsIncludes a.2.data (varTokenEnc k)))).map
    Prod.fst

def stopTags : List String := ["BODY", "MAIN", "SECTION"]

def tagOf : Node → Option String
  | .element tg _ _ => some tg
  | .text _ => none

/-- `Array.from(parent.children).filter(c => c !== current && c.tagName ===
current.tagName).length > 0`: some element child at a different index has the
same tag. -/
def hasSameTagSibling (cs : List Node) (selfIdx : Nat) (tg : String) : Bool :=
  cs.enum.any (fun ic => (ic.1 != selfIdx) && (tagOf ic.2 == some tg))

/-- The climb loop of `getRepeatableParent` (EditorInterface lines 392-420),
over the path of the current element.  The while guard stops at the stop
tags (`BODY`, `MAIN`, `SECTION`); `LI`/`TR` are returned immediately;
`DIV`/`ARTICLE`/`SECTION` are returned when a same-tag element sibling
exists (the `SECTION` case is unreachable past the guard, as in the source);
otherwise the climb continues to the parent.  Fuel is the path length. -/
def grpGo (root : Node) : Nat → List Nat → Option (List Nat)
  | 0, _ => none
  | fuel + 1, cp =>
    match nodeAt cp root with
    | some (.element tg _ _) =>
      if stopTags.contains tg then none
      else
        match nodeAt cp.dropLast root, cp.getLast? with
        | some (.element _ _ pcs), some selfIdx =>
          if ["LI", "TR"].contains tg then some cp
          else if ["DIV", "ARTICLE", "SECTION"].contains tg &&
              hasSameTagSibling pcs selfIdx tg then some cp
          else grpGo root fuel cp.dropLast
        | _, _ => none
    | _ => none

/-- `getRepeatableParent(node)`: `null` for a missing parent, else climb from
`node.parentElement`. -/
def getRepeatableParent (root : Node) (p : List Nat) : Option (List Nat) :=
  if p.isEmpty then none else grpGo root p.length p.dropLast

/-! ### Group inference (`scanGroups`, EditorInterface lines 492-567) -/

structure ScanEntry where
  key : String
  nodePath : List Nat
  parent : Option (List Nat)
deriving DecidableEq, Repr

/-- `finalOrderedKeys`: for every walker node, every regex match in its text
content (text nodes) or attribute values (elements), paired with its
repeatable parent. -/
def scanEntriesOf (root : Node) : List ScanEntry :=
  (walkerNodes root).flatMap (fun pn =>
    match pn.2 with
    | .text s =>
      (scanKeys s.data).map (fun k => ⟨k, pn.1, getRepeatableParent root pn.1⟩)
    | .element _ ats _ =>
      ats.flatMap (fun a =>
        (scanKeys a.2.data).map (fun k => ⟨k, pn.1, getRepeatableParent root pn.1⟩)))

structure GroupAcc where
  groups : List (List String)
  processedKeys : List String
  processedParents : List (List Nat)

/-- One iteration of the grouping loop over `finalOrderedKeys`. -/
def scanGroupsStep (entries : List ScanEntry) (acc : GroupAcc) (item : ScanEntry) :
    GroupAcc :=
  if acc.processedKeys.contains item.key then acc
  else
    match item.parent with
    | some par =>
      if acc.processedParents.contains par then acc
      else
        match (entries.filter (fun e => e.parent == some par)).foldl
          (fun (g : List String × List String) sib =>
            if g.2.contains sib.key then g else (g.1 ++ [sib.key], g.2 ++ [sib.key]))
          (([] : List String), acc.processedKeys) with
        | (grp, pk) =>
          if grp.isEmpty then ⟨acc.groups, pk, acc.processedParents⟩
          else ⟨acc.groups ++ [grp], pk, acc.processedParents ++ [par]⟩
    | none =>
      ⟨acc.groups ++ [[item.key]], acc.processedKeys ++ [item.key],
        acc.processedParents⟩

/-- The `fieldGroups` computed by `scanGroups`. -/
def scanGroups (root : Node) : List (List String) :=
  ((scanEntriesOf root).foldl (scanGroupsStep (scanEntriesOf root))
    ⟨[], [], []⟩).groups

/-! ### The structural mutators -/

/-- Insert `a` at position `n` (DOM `insertBefore` with the node currently at
position `n` as reference; appends when `n` is the length). -/
def listInsertAt {α : Type} (n : Nat) (a : α) (l : List α) : List α :=
  l.take n ++ a :: l.drop n

/-- Replace the child list of the element at a path. -/
def updateChildrenAt : List Nat → List Node → Node → Node
  | [], cs', .element tg ats _ => .element tg ats cs'
  | [], _, .text s => .text s
  | i :: p, cs', .element tg ats cs =>
    .element tg ats (cs.take i ++
      (match cs[i]? with
        | some c => updateChildrenAt p cs' c :: cs.drop (i + 1)
        | none => cs.drop i))
  | _ :: _, _, .text s => .text s

/-- `parent.insertBefore(a, target.nextSibling)` for a node `a` currently at
index `i < j` (the target's index): after removing index `i`, the original
next sibling of the target sits at index `j`, so the move inserts at `j`
(also when the target was last and the call is an append). -/
def moveAfterTarget (a : Node) (cs : List Node) (i j : Nat) : List Node :=
  listInsertAt j a (cs.eraseIdx i)

/-- `parent.insertBefore(a, target)` for a node `a` currently at index
`i > j`: removing index `i` leaves the target at index `j`, so the move
inserts at `j`. -/
def moveBeforeTarget (a : Node) (cs : List Node) (i j : Nat) : List Node :=
  listInsertAt j a (cs.eraseIdx i)

/-- Result of a mutator call: the (possibly unchanged) body tree and the
toast message shown, if any. -/
structure MutResult where
  html : Node
  toast : Option String

/-- `handleSwapVariables` (EditorInterface lines 422-486).  Unfound nodes or
an equal key pair only log to the console (no toast); missing repeatable
parents toast a lookup failure; differing parent elements toast the
rejection message; co-parented anchors are repositioned and the new body is
committed. -/
def handleSwapVariables (root : Node) (keyA keyB : String) : MutResult :=
  if keyA = keyB then ⟨root, none⟩
  else
    match findElementWithKey root keyA, findElementWithKey root keyB with
    | some na, some nb =>
      match getRepeatableParent root na, getRepeatableParent root nb with
      | some pa, some pb =>
        if pa.dropLast = pb.dropLast then
          match nodeAt pa.dropLast root with
          | some (.element _ _ cs) =>
            match cs[pa.getLastD 0]? with
            | some a =>
              if pa.getLastD 0 < cs.length ∧ pb.getLastD 0 < cs.length then
                if pa.getLastD 0 < pb.getLastD 0 then
                  ⟨updateChildrenAt pa.dropLast
                    (moveAfterTarget a cs (pa.getLastD 0) (pb.getLastD 0)) root, none⟩
                else
                  ⟨updateChildrenAt pa.dropLast
                    (moveBeforeTarget a cs (pa.getLastD 0) (pb.getLastD 0)) root, none⟩
              else ⟨root, none⟩
            | none => ⟨root, none⟩
          | _ => ⟨root, none⟩
        else ⟨root, some "Items must be in the same list to reorder."⟩
      | _, _ => ⟨root, some "Could not identify the list structure for these items."⟩
    | _, _ => ⟨root, none⟩

def serializeAttrs (ats : List (String × String)) : List Char :=
  ats.flatMap (fun a => ' ' :: (a.1.data ++ '=' :: '"' :: (a.2.data ++ ['"'])))

mutual

/-- HTML serialization (`innerHTML` of the model tree). -/
def serializeN : Node → List Char
  | .text s => s.data
  | .element tg ats cs =>
    '<' :: (tg.data ++ serializeAttrs ats ++ ['>']) ++ serializeL cs ++
      '<' :: '/' :: (tg.data ++ ['>'])

def serializeL : List Node → List Char
  | [] => []
  | c :: rest => serializeN c ++ serializeL rest

end

/-- `oldKey.replace(/_\d+$/, "")`: strip one trailing underscore-digits
suffix, if present. -/
def stripNumSuffix (k : String) : String :=
  let r := k.data.reverse
  let digits := r.takeWhile Char.isDigit
  if digits.isEmpty then k
  else
    match r.drop digits.length with
    | '_' :: rest => String.mk rest.reverse
    | _ => k

/-- `` `${baseName}_${randomSuffix}` `` for one drawn suffix. -/
def newDupKey (oldKey : String) (n : Nat) : String :=
  stripNumSuffix oldKey ++ "_" ++ toString n

/-- `handleDuplicateVariable` (EditorInterface lines 573-668), with the
`Math.floor(Math.random() * 10000)` draws supplied as `suffixes i` for the
`i`-th distinct key found in the clone.  Returns `none` on the toast-only
failure paths, otherwise the `newKeysMap` (in insertion order) and the next
State, in which every new key is set to `""`.  The clone's key collection
scans the serialized `innerHTML` of the anchor with the placeholder regex
and deduplicates on first occurrence, exactly as the source loop does.  (The
DOM insertion of the rewritten clone is not modelled: the claim under check
concerns the generated keys and the State update.) -/
def handleDuplicateVariable (root : Node) (st : Obj) (key : String)
    (suffixes : Nat → Nat) : Option (List (String × String) × Obj) :=
  match findElementWithKey root key with
  | none => none
  | some p =>
    match getRepeatableParent root p with
    | none => none
    | some ap =>
      match nodeAt ap root with
      | some (.element _ _ cs) =>
        let deepHtml := serializeL cs
        let olds := dedupFirst (scanKeys deepHtml)
        let newKeysMap := olds.enum.map (fun ik => (ik.2, newDupKey ik.2 (suffixes ik.1)))
        let nextState := newKeysMap.foldl (fun s kv => objSet s kv.2 "") st
        some (newKeysMap, nextState)
      | _ => none

/-! ### List helpers for the swap theorem -/

theorem getElem?_append_cons {α : Type} :
    ∀ (t : List α) (a : α) (r : List α), (t ++ a :: r)[t.length]? = some a := by
  intro t
  induction t with
  | nil => intro a r; simp
  | cons x t' ih => intro a r; simpa using ih a r

theorem eraseIdx_append_cons {α : Type} :
    ∀ (t : List α) (a : α) (r : List α), (t ++ a :: r).eraseIdx t.length = t ++ r := by
  intro t
  induction t with
  | nil => intro a r; rfl
  | cons x t' ih =>
    intro a r
    show x :: (t' ++ a :: r).eraseIdx t'.length = x :: (t' ++ r)
    rw [ih]

theorem listInsertAt_append {α : Type} :
    ∀ (l₁ : List α) (x : α) (l₂ : List α),
      listInsertAt l₁.length x (l₁ ++ l₂) = l₁ ++ x :: l₂ := by
  intro l₁
  induction l₁ with
  | nil => intro x l₂; rfl
  | cons y l₁' ih =>
    intro x l₂
    show (y :: (l₁' ++ l₂)).take (l₁'.length + 1) ++
      x :: (y :: (l₁' ++ l₂)).drop (l₁'.length + 1) = y :: (l₁' ++ x :: l₂)
    simp only [List.take_succ_cons, List.drop_succ_cons, List.cons_append]
    have := ih x l₂
    simp only [listInsertAt] at this
    rw [this]

theorem moveAfterTarget_formula (A B : Node) (t m d : List Node) :
    moveAfterTarget A (t ++ A :: (m ++ B :: d)) t.length (t.length + (m.length + 1)) =
      t ++ (m ++ B :: A :: d) := by
  unfold moveAfterTarget
  rw [eraseIdx_append_cons]
  have hsplit : t ++ (m ++ B :: d) = (t ++ (m ++ [B])) ++ d := by
    simp [List.append_assoc]
  have hlen : t.length + (m.length + 1) = (t ++ (m ++ [B])).length := by
    simp
  rw [hsplit, hlen, listInsertAt_append]
  simp [List.append_assoc]

theorem getElem?_append_cons_cons {α : Type} (t m r : List α) (b a : α) :
    (t ++ b :: (m ++ a :: r))[t.length + (m.length + 1)]? = some a := by
  have h : t ++ b :: (m ++ a :: r) = (t ++ b :: m) ++ a :: r := by
    simp [List.append_assoc]
  have hl : t.length + (m.length + 1) = (t ++ b :: m).length := by
    simp
  rw [h, hl, getElem?_append_cons]

theorem moveBeforeTarget_formula (A B : Node) (t m d : List Node) :
    moveBeforeTarget A (t ++ B :: (m ++ A :: d)) (t.length + (m.length + 1))
        t.length = t ++ A :: B :: (m ++ d) := by
  unfold moveBeforeTarget
  have hsplit : t ++ B :: (m ++ A :: d) = (t ++ B :: m) ++ A :: d := by
    simp [List.append_assoc]
  have hlen : t.length + (m.length + 1) = (t ++ B :: m).length := by
    simp
  rw [hsplit, hlen, eraseIdx_append_cons]
  have hjoin : (t ++ B :: m) ++ d = t ++ B :: (m ++ d) := by
    simp [List.append_assoc]
  rw [hjoin, listInsertAt_append]

/-- C3: when the two keys' anchors share the same parent element,
`handleSwapVariables` commits a new body in which the parent's children are
the same multiset with the two anchors in exchanged document order and all
other siblings in their original relative order, no toast is shown, and no
key is renamed (the anchor subtrees are moved verbatim).  Both reachable
branches are covered: when keyA's anchor precedes keyB's
(`insertBefore(parentA, parentB.nextSibling)`, `t ++ A :: m ++ B :: d`
becomes `t ++ m ++ B :: A :: d`), and when keyA's anchor follows keyB's
(`insertBefore(parentA, parentB)`, `t ++ B :: m ++ A :: d` becomes
`t ++ A :: B :: m ++ d`). -/
theorem handleSwap_coparented (root : Node) (keyA keyB : String)
    (hne : keyA ≠ keyB) :
    (∀ (P : List Nat) (tg : String) (ats : List (String × String))
       (t m d : List Node) (A B : Node) (na nb : List Nat),
       findElementWithKey root keyA = some na →
       findElementWithKey root keyB = some nb →
       getRepeatableParent root na = some (P ++ [t.length]) →
       getRepeatableParent root nb = some (P ++ [t.length + (m.length + 1)]) →
       nodeAt P root = some (.element tg ats (t ++ A :: (m ++ B :: d))) →
       handleSwapVariables root keyA keyB =
         ⟨updateChildrenAt P (t ++ (m ++ B :: A :: d)) root, none⟩ ∧
       List.Perm (t ++ (m ++ B :: A :: d)) (t ++ A :: (m ++ B :: d))) ∧
    (∀ (P : List Nat) (tg : String) (ats : List (String × String))
       (t m d : List Node) (A B : Node) (na nb : List Nat),
       findElementWithKey root keyA = some na →
       findElementWithKey root keyB = some nb →
       getRepeatableParent root na = some (P ++ [t.length + (m.length + 1)]) →
       getRepeatableParent root nb = some (P ++ [t.length]) →
       nodeAt P root = some (.element tg ats (t ++ B :: (m ++ A :: d))) →
       handleSwapVariables root keyA keyB =
         ⟨updateChildrenAt P (t ++ A :: B :: (m ++ d)) root, none⟩ ∧
       List.Perm (t ++ A :: B :: (m ++ d)) (t ++ B :: (m ++ A :: d))) := by
  constructor
  · intro P tg ats t m d A B na nb h1 h2 h3 h4 h5
    constructor
    · simp only [handleSwapVariables, if_neg hne, h1, h2, h3, h4,
        List.dropLast_concat, List.getLastD_concat]
      rw [if_pos trivial]
      simp only [h5, getElem?_append_cons]
      have hlenA : t.length < (t ++ A :: (m ++ B :: d)).length := by
        simp
      have hlenB : t.length + (m.length + 1) < (t ++ A :: (m ++ B :: d)).length := by
        simp
      rw [if_pos ⟨hlenA, hlenB⟩,
        if_pos (by omega : t.length < t.length + (m.length + 1))]
      rw [moveAfterTarget_formula]
    · have p1 : List.Perm (m ++ B :: A :: d) (m ++ A :: B :: d) :=
        List.Perm.append_left m (List.Perm.swap A B d)
      have p2 : List.Perm (m ++ A :: (B :: d)) (A :: (m ++ B :: d)) := List.perm_middle
      exact List.Perm.append_left t (p1.trans p2)
  · intro P tg ats t m d A B na nb h1 h2 h3 h4 h5
    constructor
    · simp only [handleSwapVariables, if_neg hne, h1, h2, h3, h4,
        List.dropLast_concat, List.getLastD_concat]
      rw [if_pos trivial]
      simp only [h5, getElem?_append_cons_cons]
      have hlenA : t.length + (m.length + 1) < (t ++ B :: (m ++ A :: d)).length := by
        simp
      have hlenB : t.length < (t ++ B :: (m ++ A :: d)).length := by
        simp
      rw [if_pos ⟨hlenA, hlenB⟩,
        if_neg (by omega : ¬ t.length + (m.length + 1) < t.length)]
      rw [moveBeforeTarget_formula]
    · have q1 : List.Perm (A :: B :: (m ++ d)) (B :: A :: (m ++ d)) :=
        List.Perm.swap B A (m ++ d)
      have q2 : List.Perm (A :: (m ++ d)) (m ++ A :: d) := List.perm_middle.symm
      exact List.Perm.append_left t (q1.trans (List.Perm.cons B q2))

/-- C4: when both anchors exist but their parent elements differ,
`handleSwapVariables` leaves the body unchanged and shows the rejection
toast. -/
theorem handleSwap_cross_parent_reject (root : Node) (keyA keyB : String)
    (na nb pa pb : List Nat)
    (hne : keyA ≠ keyB)
    (h1 : findElementWithKey root keyA = some na)
    (h2 : findElementWithKey root keyB = some nb)
    (h3 : getRepeatableParent root na = some pa)
    (h4 : getRepeatableParent root nb = some pb)
    (hdiff : pa.dropLast ≠ pb.dropLast) :
    handleSwapVariables root keyA keyB =
      ⟨root, some "Items must be in the same list to reorder."⟩ := by
  simp only [handleSwapVariables, if_neg hne, h1, h2, h3, h4, if_neg hdiff]

/-- A list item holding the single placeholder `{{k}}`. -/
def mkLi (k : String) : Node :=
  .element "LI" [] [.text (String.mk (varTokenPlain k))]

/-- Parsed body of `<ul><li>{{a}}</li><li>{{b}}</li></ul>`. -/
def docSwap : Node :=
  .element "BODY" [] [.element "UL" [] [mkLi "a", mkLi "b"]]

/-- Witness for C3 on two adjacent list items, exercising both branches:
swapping `a` with `b` (anchor of the first key first, the
`insertBefore(.., nextSibling)` path) and swapping `b` with `a` (anchor of
the first key second, the `insertBefore(parentA, parentB)` path) both yield
the children `[b, a]`. -/
theorem handleSwap_coparented_witness :
    (handleSwapVariables docSwap "a" "b" =
        ⟨.element "BODY" [] [.element "UL" [] [mkLi "b", mkLi "a"]], none⟩ ∧
      List.Perm [mkLi "b", mkLi "a"] [mkLi "a", mkLi "b"]) ∧
    handleSwapVariables docSwap "b" "a" =
      ⟨.element "BODY" [] [.element "UL" [] [mkLi "b", mkLi "a"]], none⟩ := by
  constructor
  · have h := (handleSwap_coparented docSwap "a" "b" (by decide)).1 [0] "UL" []
      [] [] [] (mkLi "a") (mkLi "b") [0, 0, 0] [0, 1, 0] rfl rfl rfl rfl rfl
    exact ⟨h.1.trans rfl, h.2⟩
  · have h := (handleSwap_coparented docSwap "b" "a" (by decide)).2 [0] "UL" []
      [] [] [] (mkLi "b") (mkLi "a") [0, 1, 0] [0, 0, 0] rfl rfl rfl rfl rfl
    exact h.1.trans rfl

/-- Parsed body of `<ul><li>{{a}}</li></ul><ul><li>{{b}}</li></ul>`. -/
def docSwapCross : Node :=
  .element "BODY" [] [.element "UL" [] [mkLi "a"], .element "UL" [] [mkLi "b"]]

/-- Witness for C4 on two anchors in different lists. -/
theorem handleSwap_cross_parent_reject_witness :
    handleSwapVariables docSwapCross "a" "b" =
      ⟨docSwapCross, some "Items must be in the same list to reorder."⟩ :=
  handleSwap_cross_parent_reject docSwapCross "a" "b" [0, 0, 0] [1, 0, 0]
    [0, 0] [1, 0] (by decide) rfl rfl rfl rfl (by decide)

/-! ### The group-inference theorems -/

theorem nodeAt_parent :
    ∀ (p : List Nat) (root : Node) (i : Nat) (n : Node),
      nodeAt (p ++ [i]) root = some n →
      ∃ tg ats cs, nodeAt p root = some (Node.element tg ats cs) ∧ cs[i]? = some n := by
  intro p
  induction p with
  | nil =>
    intro root i n h
    cases root with
    | text s => simp [nodeAt] at h
    | element tg ats cs =>
      refine ⟨tg, ats, cs, rfl, ?_⟩
      simp only [List.nil_append, nodeAt] at h
      cases hc : cs[i]? with
      | none => rw [hc] at h; cases h
      | some c =>
        rw [hc] at h
        have hcn : c = n := by simpa [nodeAt] using h
        exact congrArg some hcn
  | cons q p' ih =>
    intro root i n h
    cases root with
    | text s => simp [nodeAt] at h
    | element tg ats cs =>
      simp only [List.cons_append, nodeAt] at h
      cases hc : cs[q]? with
      | none => rw [hc] at h; cases h
      | some c =>
        rw [hc] at h
        obtain ⟨tg', ats', cs', hp, hcs⟩ := ih c i n h
        refine ⟨tg', ats', cs', ?_, hcs⟩
        show nodeAt (q :: p') (Node.element tg ats cs) = _
        simp [nodeAt, hc, hp]

/-- The climb loop, entered at a list-item or table-row element, returns that
element immediately (for any positive fuel). -/
theorem grpGo_li (root : Node) (f : Nat) (cp : List Nat) (tg : String)
    (ats : List (String × String)) (cs : List Node)
    (hcp : cp ≠ []) (hnode : nodeAt cp root = some (.element tg ats cs))
    (htg : tg = "LI" ∨ tg = "TR") :
    grpGo root (f + 1) cp = some cp := by
  have hdec : cp.dropLast ++ [cp.getLast hcp] = cp := List.dropLast_append_getLast hcp
  obtain ⟨ptg, pats, pcs, hp, _⟩ :=
    nodeAt_parent cp.dropLast root (cp.getLast hcp) _ (by rw [hdec]; exact hnode)
  have hlast : cp.getLast? = some (cp.getLast hcp) := List.getLast?_eq_getLast _ hcp
  rcases htg with rfl | rfl
  · simp only [grpGo, hnode]
    rw [if_neg (by decide : ¬ (stopTags.contains "LI") = true)]
    simp only [hp, hlast]
    rw [if_pos (by decide : (["LI", "TR"].contains "LI") = true)]
  · simp only [grpGo, hnode]
    rw [if_neg (by decide : ¬ (stopTags.contains "TR") = true)]
    simp only [hp, hlast]
    rw [if_pos (by decide : (["LI", "TR"].contains "TR") = true)]

/-- Parsed body of
`<ul><li>{{a}}</li><li>{{b}}</li><li>{{c}}</li></ul>`. -/
def docC9 : Node :=
  .element "BODY" [] [.element "UL" [] [mkLi "a", mkLi "b", mkLi "c"]]

/-- C9: for a template of three `<li>` elements each holding one distinct
placeholder, group inference finds the three occurrences in document order,
each anchored at its own (distinct) `<li>`, and returns three singleton
groups in document order; moreover the climb of `getRepeatableParent`
returns any list-item or table-row ancestor immediately when it reaches
it. -/
theorem scanGroups_li_rows :
    (scanEntriesOf docC9 =
        [⟨"a", [0, 0, 0], some [0, 0]⟩, ⟨"b", [0, 1, 0], some [0, 1]⟩,
          ⟨"c", [0, 2, 0], some [0, 2]⟩] ∧
      scanGroups docC9 = [["a"], ["b"], ["c"]]) ∧
    (∀ (root : Node) (f : Nat) (cp : List Nat) (tg : String)
        (ats : List (String × String)) (cs : List Node),
      cp ≠ [] → nodeAt cp root = some (.element tg ats cs) →
      (tg = "LI" ∨ tg = "TR") → grpGo root (f + 1) cp = some cp) :=
  ⟨⟨rfl, rfl⟩, fun root f cp tg ats cs h1 h2 h3 => grpGo_li root f cp tg ats cs h1 h2 h3⟩

/-- Witness for C9's general conjunct at the first `<li>` of the concrete
document. -/
theorem scanGroups_li_rows_witness :
    (([0, 0] : List Nat) ≠ [] ∧
      nodeAt [0, 0] docC9 = some (mkLi "a") ∧ (("LI" : String) = "LI" ∨ ("LI" : String) = "TR")) ∧
    grpGo docC9 2 [0, 0] = some [0, 0] :=
  ⟨⟨by decide, rfl, Or.inl rfl⟩,
    scanGroups_li_rows.2 docC9 1 [0, 0] "LI" []
      [Node.text (String.mk (varTokenPlain "a"))] (by decide) rfl (Or.inl rfl)⟩

/-! ### The duplicate-collision theorem -/

/-- Parsed body of `<ul><li>{{item}}</li><li>{{item_5}}</li></ul>`. -/
def docDup : Node :=
  .element "BODY" [] [.element "UL" [] [mkLi "item", mkLi "item_5"]]

/-- The template string of that body (its serialization). -/
def dupHtml : String :=
  String.mk (serializeL [.element "UL" [] [mkLi "item", mkLi "item_5"]])

def dupState : Obj := [("item", defaultValue "item"), ("item_5", "hello")]

/-- C1 (the code violates the claim): duplicating `item`'s anchor when the
random draw is `5` generates the new key `item_5`, which already occurs both
in the Template and in State — there is no collision retry — and the State
update then overwrites the user's value `"hello"` of the existing key
`item_5` with `""`. -/
theorem duplicate_key_collision :
    handleDuplicateVariable docDup dupState "item" (fun _ => 5) =
      some ([("item", "item_5")], [("item", defaultValue "item"), ("item_5", "")]) ∧
    "item_5" ∈ objKeys dupState ∧
    "item_5" ∈ foundKeysOf dupHtml ∧
    objGet dupState "item_5" = some "hello" :=
  ⟨rfl, by decide, by decide, rfl⟩

/-! ### Theme rewriter (`handleGlobalThemeUpdate`, EditorInterface.tsx 263-303) -/

/-- The single-quote character, written via its code point. -/
def sqC : Char := Char.ofNat 39

/-- JavaScript `String.prototype.startsWith`. -/
def strStartsWith (p s : String) : Bool := litPre p.data s.data

/-- The `GOOGLE_FONTS` list (EditorInterface.tsx 69-72). -/
def GOOGLE_FONTS : List String :=
  ["Inter", "Roboto", "Open Sans", "Montserrat", "Lato",
   "Poppins", "Playfair Display", "Lora", "Nunito", "Oswald"]

/-- Replacement of every whitespace run by a single plus sign; models
`newVal.replace(/\s+/g, "+")` in the font-URL construction (line 274).
Fuel is the input length. -/
def plusEncode : Nat → List Char → List Char
  | 0, s => s
  | _ + 1, [] => []
  | fuel + 1, c :: rest =>
    if isJsWs c then '+' :: plusEncode fuel (rest.dropWhile isJsWs)
    else c :: plusEncode fuel rest

/-- Literal head of the at-import pattern (line 275): everything before the
`[^?]+`-style font-name hole, i.e. up to and including `family=`. -/
def impHead : List Char :=
  "@import url(".data ++ sqC ::
    "https://fonts.googleapis.com/css2?family=".data

/-- Length of a match of the at-import regex of line 275 at the head of `s`,
if it matches there.  The hole is a greedy nonempty run of non-quote
characters, which must be followed by the literal closer; since the run can
never contain the quote, greedy matching is deterministic. -/
def impMatchLen (s : List Char) : Option Nat :=
  if litPre impHead s then
    let rest := s.drop impHead.length
    let body := rest.takeWhile (fun c => c != sqC)
    if body.isEmpty then none
    else if litPre (sqC :: ')' :: [';']) (rest.drop body.length) then
      some (impHead.length + body.length + 3)
    else none
  else none

/-- Replacement text for a matched at-import rule: the template literal of
line 275 with the freshly built `fontUrl` spliced in. -/
def impNew (fontUrl : List Char) : List Char :=
  "@import url(".data ++ sqC :: (fontUrl ++ sqC :: ')' :: [';'])

/-- First-occurrence (non-global) regex replacement of the at-import rule,
scanning left to right.  Fuel is the input length. -/
def replaceFirstImp (rep : List Char) : Nat → List Char → List Char
  | 0, s => s
  | _ + 1, [] => []
  | fuel + 1, c :: rest =>
    match impMatchLen (c :: rest) with
    | some n => rep ++ (c :: rest).drop n
    | none => c :: replaceFirstImp rep fuel rest

/-- Case-insensitive literal-prefix test, for the `i` regex flag. -/
def litPreCI : List Char → List Char → Bool
  | [], _ => true
  | _ :: _, [] => false
  | a :: as, b :: bs => (a.toLower == b.toLower) && litPreCI as bs

/-- Greedy optional quote `[\x27"]?`: split off a leading single or double
quote if present. -/
def optQuote : List Char → List Char × List Char
  | [] => ([], [])
  | c :: cs => if c == '"' || c == sqC then ([c], cs) else ([], c :: cs)

/-- The literal part of the font-family pattern. -/
def ffLit : List Char := "font-family:".data

/-- Match of the font-family regex of line 277 at the head of `s`:
`(font-family:\s*[quotes]?)OLD([quotes]?[^;]*)` with the `i` flag.  Returns
`(group1, group2, remainder)`; the captured groups keep the source text
(hence `s.take`), while the literals are compared case-insensitively.
Every font name in scope starts with a letter, so the greedy `\s*` and
optional-quote steps never need backtracking. -/
def fontFamAt (oldV : List Char) (s : List Char) :
    Option (List Char × List Char × List Char) :=
  if litPreCI ffLit s then
    let r1 := s.drop ffLit.length
    let w := r1.takeWhile isJsWs
    let q1p := optQuote (r1.drop w.length)
    if litPreCI oldV q1p.2 then
      let r4 := q1p.2.drop oldV.length
      let q2p := optQuote r4
      let tl := q2p.2.takeWhile (fun c => c != ';')
      some (s.take ffLit.length ++ w ++ q1p.1, q2p.1 ++ tl,
        q2p.2.drop tl.length)
    else none
  else none

/-- Global replacement by the font-family regex with template `$1NEW$2`
(lines 277-278).  Fuel is the input length; every match consumes at least
the literal `font-family:`. -/
def fontFamAux (oldV newV : List Char) : Nat → List Char → List Char
  | 0, s => s
  | _ + 1, [] => []
  | fuel + 1, c :: rest =>
    match fontFamAt oldV (c :: rest) with
    | some (g1, g2, rem) => g1 ++ newV ++ g2 ++ fontFamAux oldV newV fuel rem
    | none => c :: fontFamAux oldV newV fuel rest

/-- The lookahead class `(?=[\s"\x27\>\]]|$)` of the tailwind regex
(line 290): end of input, whitespace, a quote, a closing angle bracket or a
closing square bracket. -/
def twLookOk : List Char → Bool
  | [] => true
  | c :: _ => isJsWs c || c == '"' || c == sqC || c == '>' || c == ']'

/-- Word-character status of the last character of the matched pattern, used
as the left context for the next `\b` test after a match. -/
def lastWordness (pat : List Char) (dflt : Bool) : Bool :=
  match pat.getLast? with
  | some c => isWordChar c
  | none => dflt

/-- Global replacement by `\bPAT(?=[\s"\x27\>\]]|$)` (line 290): a match
needs a word boundary on the left (`prevWord` is the word-status of the
previous character, `false` at the start of the string), the literal
pattern, and the zero-width lookahead; the scan resumes after the matched
pattern, never inside it.  `escapedOld` in the source only regex-escapes
the pattern so that it matches literally, which is what `litPre` does
directly.  Fuel is the input length. -/
def twAux (pat rep : List Char) : Nat → Bool → List Char → List Char
  | 0, _, s => s
  | _ + 1, _, [] => []
  | fuel + 1, prevWord, c :: rest =>
    if (prevWord != isWordChar c) && litPre pat (c :: rest)
        && twLookOk ((c :: rest).drop pat.length) then
      rep ++ twAux pat rep fuel (lastWordness pat prevWord)
        ((c :: rest).drop pat.length)
    else
      c :: twAux pat rep fuel (isWordChar c) rest

/-- Entry point of the tailwind-class replacement scan. -/
def replaceTwAll (pat rep s : List Char) : List Char :=
  twAux pat rep s.length false s

/-- Global case-insensitive literal replacement, for the raw-value branch
`new RegExp(escapedOld, "gi")` of line 299.  Fuel is the input length. -/
def ciAux (pat rep : List Char) : Nat → List Char → List Char
  | 0, s => s
  | _ + 1, [] => []
  | fuel + 1, c :: rest =>
    if litPreCI pat (c :: rest) then
      rep ++ ciAux pat rep fuel ((c :: rest).drop pat.length)
    else
      c :: ciAux pat rep fuel rest

/-- Entry point of the case-insensitive raw replacement. -/
def ciReplaceAll (pat rep s : List Char) : List Char := ciAux pat rep s.length s

/-- The alternation `^(bg|text|border|ring|fill|stroke|outline)` of
line 287, in source order; a JavaScript alternation takes the first
alternative that matches. -/
def stylePfxList : List String :=
  ["bg", "text", "border", "ring", "fill", "stroke", "outline"]

/-- The `prefixMatch` computation of lines 287-288. -/
def tokenStylePfx (oldVal : String) : Option String :=
  stylePfxList.find? (fun p => strStartsWith p oldVal)

/-- The `isTailwind` test of lines 283-285. -/
def isTailwindB (oldVal : String) : Bool :=
  strStartsWith "bg-" oldVal || strStartsWith "text-" oldVal ||
  strStartsWith "border-" oldVal || strStartsWith "ring-" oldVal ||
  strStartsWith "fill-" oldVal || strStartsWith "stroke-" oldVal ||
  (["bg-white", "bg-black", "bg-transparent",
    "text-white", "text-black", "text-transparent"] : List String).contains oldVal

/-- `handleGlobalThemeUpdate` (EditorInterface.tsx 263-303) acting on the
current html `prev`: the early return on empty or equal values, then the
Google-font branch (at-import rewrite plus font-family rewrite), the
tailwind-class branch, and the raw case-insensitive branch. -/
def handleGlobalThemeUpdate (oldVal newVal : String) (prev : List Char) :
    List Char :=
  if oldVal.data.isEmpty || newVal.data.isEmpty || oldVal == newVal then prev
  else if GOOGLE_FONTS.contains oldVal then
    let fontUrl := "https://fonts.googleapis.com/css2?family=".data ++
      plusEncode newVal.data.length newVal.data ++ "&display=swap".data
    let next1 := replaceFirstImp (impNew fontUrl) prev.length prev
    fontFamAux oldVal.data newVal.data next1.length next1
  else if isTailwindB oldVal && !strStartsWith "#" oldVal &&
      !strStartsWith "rgb" oldVal then
    let rep :=
      match tokenStylePfx oldVal with
      | some pfx =>
        if strStartsWith "#" newVal then
          pfx.data ++ '-' :: '[' :: (newVal.data ++ [']'])
        else newVal.data
      | none => newVal.data
    replaceTwAll oldVal.data rep prev
  else
    ciReplaceAll oldVal.data newVal.data prev

/-- C8: a theme rewrite of the utility class `bg-blue-600` to the explicit
color `#ff0000` replaces the class-attribute occurrence with the
bracket-parameterized utility `bg-[#ff0000]` and leaves the unrelated
running text `bg-blue-600-ish` untouched, because the tailwind branch only
matches at a word boundary followed by whitespace, a quote, `>`, `]` or the
end of the string. -/
theorem theme_rewrite_word_boundary :
    handleGlobalThemeUpdate "bg-blue-600" "#ff0000"
        "<div class=\"bg-blue-600\">bg-blue-600-ish</div>".data =
      "<div class=\"bg-[#ff0000]\">bg-blue-600-ish</div>".data := by
  decide
